import Mathlib

/-!
Verification development for the brainsait_ai pipeline
(web crawler + feature extraction + digital-maturity scoring).

Shallow embedding conventions:
* Python floats are modelled as `ℚ` (all scoring arithmetic is exact
  multiples of 1/4, so no rounding discrepancies arise).
* Python `Optional[...]` becomes `Option ...`; Python truthiness of an
  optional string/number is modelled explicitly where the source relies
  on it.
* External collaborators (the LLM, BeautifulSoup queries, trafilatura,
  langdetect, `urljoin`, the network) are abstracted as function
  parameters; everything the repository itself computes is embedded
  directly from the source.
-/

namespace BrainsaitAI

/-! ## Python `round(x, 2)`

Python `round` uses round-half-to-even.  `pyRound2 q` rounds `q` to two
decimal places.  All values the scorer feeds to `round(.., 2)` are exact
multiples of 1/4, where every rounding mode is the identity, so the
tie-breaking rule is irrelevant for the embedded code; it is still
modelled faithfully. -/

def roundHalfEven (q : ℚ) : ℤ :=
  if q - ⌊q⌋ < 1/2 then ⌊q⌋
  else if 1/2 < q - ⌊q⌋ then ⌊q⌋ + 1
  else if ⌊q⌋ % 2 = 0 then ⌊q⌋ else ⌊q⌋ + 1

def pyRound2 (q : ℚ) : ℚ := (roundHalfEven (q * 100) : ℚ) / 100

/-! ## Executable string helpers

Core `String.startsWith`/`String.toLower` are implemented with
well-founded recursion / substring positions; these structurally
recursive equivalents over the character list keep every embedded
definition kernel-evaluable on concrete inputs. -/

/-- `listLeads pat l`: `l` starts with `pat`. -/
def listLeads : List Char → List Char → Bool
  | [], _ => true
  | _ :: _, [] => false
  | p :: ps, c :: cs => p == c && listLeads ps cs

/-- Python `s.startswith(pat)`. -/
def strStarts (s pat : String) : Bool := listLeads pat.data s.data

/-- Python `s.lower()` (ASCII case mapping, which is all the embedded
call sites feed it). -/
def strToLower (s : String) : String := ⟨s.data.map Char.toLower⟩

/-! ## Data model (google_places/client.py, features/engineering.py) -/

structure Coordinates where
  lat : ℚ
  lng : ℚ
deriving DecidableEq

/-- BusinessRecord from `google_places/client.py`. -/
structure BusinessRecord where
  place_id : String
  name : String
  address : String
  location : Coordinates
  types : List String
  rating : Option ℚ
  user_ratings_total : Option ℤ
  website : Option String
  phone_number : Option String
  google_maps_url : String
deriving DecidableEq

/-- FeatureVector from `features/engineering.py`. -/
structure FeatureVector where
  place_id : String
  business_name : String
  website : Option String
  total_pages : ℕ
  languages : List String
  avg_word_count : ℚ
  has_structured_data : Bool
  has_meta_description : Bool
  has_open_graph : Bool
  has_analytics : Bool
  has_contact_cta : Bool
  has_viewport_meta : Bool
  has_email_address : Bool
  has_phone_number : Bool
deriving DecidableEq

/-! ## Digital maturity scorer (scoring/digital_maturity.py) -/

structure SubScores where
  technical : ℚ
  seo : ℚ
  content : ℚ
  trust : ℚ
deriving DecidableEq

structure MaturityAssessment where
  place_id : String
  business_name : String
  overall_score : ℚ
  subscores : SubScores
  highlights_en : String
  highlights_ar : String
  recommendations_en : String
  recommendations_ar : String
deriving DecidableEq

namespace DigitalMaturityScorer

/-- Python truthiness test `business.website and business.website.startswith("https")`:
`None` and the empty string are falsy. -/
def websiteIsHttps : Option String → Bool
  | none => false
  | some w => decide (w ≠ "") && strStarts w "https"

/-- `DigitalMaturityScorer._score_technical`. -/
def score_technical (business : BusinessRecord) (features : FeatureVector) : ℚ :=
  let s0 : ℚ := 50
  let s1 := if websiteIsHttps business.website then s0 + 15 else s0
  let s2 := if features.has_structured_data then s1 + 10 else s1
  let s3 := if features.has_viewport_meta then s2 + 10 else s2
  let s4 := if features.has_analytics then s3 + 15 else s3
  if s4 ≤ 100 then s4 else 100

/-- `DigitalMaturityScorer._score_seo`. -/
def score_seo (features : FeatureVector) : ℚ :=
  let s0 : ℚ := 40
  let s1 := if features.has_meta_description then s0 + 15 else s0
  let s2 := if features.has_open_graph then s1 + 10 else s1
  let s3 := if 2 ≤ features.languages.length then s2 + 15 else s2
  let s4 := if 300 ≤ features.avg_word_count then s3 + 20 else s3
  if s4 ≤ 100 then s4 else 100

/-- `DigitalMaturityScorer._score_content`. -/
def score_content (features : FeatureVector) : ℚ :=
  let s0 : ℚ := 35
  let s1 :=
    if 400 ≤ features.avg_word_count then s0 + 20
    else if 250 ≤ features.avg_word_count then s0 + 10
    else s0
  let s2 := if 3 ≤ features.total_pages then s1 + 15 else s1
  let s3 := if features.has_contact_cta then s2 + 10 else s2
  if s3 ≤ 100 then s3 else 100

/-- Python truthiness test
`business.user_ratings_total and business.user_ratings_total > 50`. -/
def ratingsTotalOver50 : Option ℤ → Bool
  | none => false
  | some n => decide (n ≠ 0) && decide (50 < n)

/-- `DigitalMaturityScorer._score_trust`; `(business.rating or 0)` maps
`None` and `0.0` alike to `0`. -/
def score_trust (business : BusinessRecord) (features : FeatureVector) : ℚ :=
  let s0 : ℚ := 45
  let s1 := if (42 : ℚ)/10 ≤ business.rating.getD 0 then s0 + 15 else s0
  let s2 := if features.has_email_address then s1 + 10 else s1
  let s3 := if features.has_phone_number then s2 + 10 else s2
  let s4 := if ratingsTotalOver50 business.user_ratings_total then s3 + 10 else s3
  if s4 ≤ 100 then s4 else 100

/-- `DigitalMaturityScorer._calculate_subscores`. -/
def calculate_subscores (business : BusinessRecord) (features : FeatureVector) : SubScores :=
  { technical := score_technical business features
    seo := score_seo features
    content := score_content features
    trust := score_trust business features }

/-- `DigitalMaturityScorer.score`.  The LLM collaborator and the two
prompt-template builders (`_build_prompt`, `_build_recommendation_prompt`,
which are f-strings whose float formatting is outside the embedded
fragment) are passed as function parameters; they feed only the four
narrative strings. -/
def score (llm : String → String)
    (buildPrompt buildRecPrompt : BusinessRecord → FeatureVector → SubScores → String → String)
    (business : BusinessRecord) (features : FeatureVector) : MaturityAssessment :=
  let subscores := calculate_subscores business features
  let overall := pyRound2
    ((subscores.technical + subscores.seo + subscores.content + subscores.trust) / 4)
  { place_id := business.place_id
    business_name := business.name
    overall_score := overall
    subscores := subscores
    highlights_en := (llm (buildPrompt business features subscores "English")).trim
    highlights_ar := (llm (buildPrompt business features subscores "Arabic")).trim
    recommendations_en := (llm (buildRecPrompt business features subscores "English")).trim
    recommendations_ar := (llm (buildRecPrompt business features subscores "Arabic")).trim }

end DigitalMaturityScorer

/-! ## Offer generation (generation/offers.py) -/

inductive ServicePackage where
  | BASIC
  | PROFESSIONAL
  | ENTERPRISE
deriving DecidableEq

/-- `BusinessAnalysis` from `generation/offers.py` (fields used by
`analyze_package_fit`; `maturity` is the one it reads). -/
structure BusinessAnalysis where
  business : BusinessRecord
  feature_vector : FeatureVector
  maturity : MaturityAssessment
  industry : String
  web_page_titles : List String
  locale : String
deriving DecidableEq

namespace OfferGenerator

/-- `OfferGenerator.analyze_package_fit`. -/
def analyze_package_fit (analysis : BusinessAnalysis) : ServicePackage :=
  let maturity_score := analysis.maturity.overall_score
  if maturity_score < 30 then ServicePackage.BASIC
  else if maturity_score < 70 then ServicePackage.PROFESSIONAL
  else ServicePackage.ENTERPRISE

end OfferGenerator

/-! ## Page fetcher (utils/http.py)

`get` is a single `session.get` wrapped in a `tenacity.retry` decorator:

```
@retry(retry=retry_if_exception_type((requests.RequestException, HttpError)),
       stop=stop_after_attempt(3),
       wait=wait_exponential(multiplier=1, min=1, max=8),
       reraise=True)
```

The network is abstracted as a list of per-attempt outcomes: attempt `i`
consumes `outcomes[i]`, either a transport-level failure
(`requests.RequestException`) or an HTTP response with a status code and
body. -/

namespace Http

inductive Outcome where
  | transportError
  | response (status : ℕ) (body : String)
deriving DecidableEq

structure HttpResponse where
  status : ℕ
  body : String
deriving DecidableEq

inductive GetError where
  | requestException
  | httpError (status : ℕ) (url : String)
deriving DecidableEq

/-- One decorated-function body: perform the GET; a transport failure
re-raises `requests.RequestException`; a status `>= 400` raises
`HttpError`; otherwise the response is returned. -/
def singleAttempt (url : String) : Outcome → Except GetError HttpResponse
  | Outcome.transportError => Except.error GetError.requestException
  | Outcome.response s b =>
      if 400 ≤ s then Except.error (GetError.httpError s url)
      else Except.ok { status := s, body := b }

/-- `retry_if_exception_type((requests.RequestException, HttpError))`:
both exception kinds are retryable. -/
def retryable : GetError → Bool
  | GetError.requestException => true
  | GetError.httpError _ _ => true

/-- `wait_exponential(multiplier=1, min=1, max=8)`: the sleep before the
retry following attempt `n` (`n ≥ 1`), in seconds. -/
def waitSeconds (n : ℕ) : ℚ :=
  max 1 (min ((2 : ℚ) ^ (n - 1)) 8)

/-- The tenacity loop with `attemptsLeft` attempts remaining; `reraise=True`
re-raises the exception of the final attempt once `stop_after_attempt`
triggers. -/
def retryLoop (url : String) : ℕ → List Outcome → Except GetError HttpResponse
  | _, [] => Except.error GetError.requestException
  | n, o :: rest =>
      match singleAttempt url o with
      | Except.ok r => Except.ok r
      | Except.error e =>
          if retryable e ∧ 2 ≤ n then retryLoop url (n - 1) rest
          else Except.error e

/-- `get` from `utils/http.py`: `stop_after_attempt(3)`. -/
def get (url : String) (outcomes : List Outcome) : Except GetError HttpResponse :=
  retryLoop url 3 outcomes

end Http

/-! ## URL parsing (urllib.parse, as used by enrichment/web_crawler.py)

`urlsplit`/`urlunsplit` are embedded for the absolute-URL grammar the
crawler exercises, following CPython `urllib.parse`:

* scheme: the text before the first `:` when it is a non-empty run of
  scheme characters starting with a letter, lowercased; otherwise empty;
* netloc: after a leading `//`, up to the next `/`, `?` or `#`;
* fragment: everything after the first `#` of the remainder; query:
  everything after the first `?` of what is left; path: the rest;
* a netloc containing `[` without `]` (or vice versa) raises
  `ValueError` (modelled as `none`); CPython's removal of tab/CR/LF
  bytes is not modelled (no embedded input contains them). -/

namespace WebCrawler

def schemeChar (c : Char) : Bool :=
  c.isAlpha || c.isDigit || c == '+' || c == '-' || c == '.'

def stopChar (c : Char) : Bool :=
  c == '/' || c == '?' || c == '#'

structure UrlParts where
  scheme : String
  netloc : String
  path : String
  query : String
  fragment : String
deriving DecidableEq

/-- CPython scheme detection: returns `(scheme, rest)`; the scheme is `[]`
(empty) when the text before the first `:` is not a valid scheme. -/
def splitScheme (l : List Char) : List Char × List Char :=
  let pre := l.takeWhile (fun c => c != ':')
  let post := l.dropWhile (fun c => c != ':')
  match post with
  | [] => ([], l)
  | _ :: rest =>
      if pre ≠ [] ∧ (pre.headD ' ').isAlpha ∧ pre.all schemeChar then
        (pre.map Char.toLower, rest)
      else ([], l)

/-- `'[' in netloc` xor `']' in netloc` raises `ValueError` in CPython. -/
def bracketBad (n : List Char) : Bool :=
  n.contains '[' != n.contains ']'

/-- `url.split(c, 1)`: `(before, after)` at the first occurrence of `c`;
`(url, [])` when `c` is absent. -/
def splitOnChar (c : Char) (l : List Char) : List Char × List Char :=
  (l.takeWhile (fun x => x != c), (l.dropWhile (fun x => x != c)).drop 1)

def urlsplitL (l : List Char) : Option UrlParts :=
  let sr := splitScheme l
  let scheme := sr.1
  let rest1 := sr.2
  if rest1.take 2 = ['/', '/'] then
    let netloc := (rest1.drop 2).takeWhile (fun c => !stopChar c)
    let rest2 := (rest1.drop 2).dropWhile (fun c => !stopChar c)
    if bracketBad netloc then none
    else
      let fr := splitOnChar '#' rest2
      let pq := splitOnChar '?' fr.1
      some ⟨⟨scheme⟩, ⟨netloc⟩, ⟨pq.1⟩, ⟨pq.2⟩, ⟨fr.2⟩⟩
  else
    let fr := splitOnChar '#' rest1
    let pq := splitOnChar '?' fr.1
    some ⟨⟨scheme⟩, "", ⟨pq.1⟩, ⟨pq.2⟩, ⟨fr.2⟩⟩

def urlsplit (s : String) : Option UrlParts := urlsplitL s.data

/-- CPython `urllib.parse.urlunsplit` (over the character lists, so it
reduces structurally). -/
def urlunsplit (p : UrlParts) : String :=
  let url0 := p.path.data
  let url1 :=
    if p.netloc ≠ "" ∨ (url0 ≠ [] ∧ url0.take 2 = ['/', '/']) then
      '/' :: '/' :: (p.netloc.data ++
        (if url0 ≠ [] ∧ url0.head? ≠ some '/' then '/' :: url0 else url0))
    else url0
  let url2 := if p.scheme ≠ "" then p.scheme.data ++ ':' :: url1 else url1
  let url3 := if p.query ≠ "" then url2 ++ '?' :: p.query.data else url2
  ⟨if p.fragment ≠ "" then url3 ++ '#' :: p.fragment.data else url3⟩

/-- Python `s.rstrip("/")`. -/
def rstripSlashes (s : String) : String :=
  ⟨(s.data.reverse.dropWhile (fun c => c == '/')).reverse⟩

/-- `WebCrawler._normalize_url`. -/
def normalize_url (url : String) : Option String :=
  match urlsplit url with
  | none => none
  | some p =>
      if (p.scheme = "http" ∨ p.scheme = "https") ∧ p.netloc ≠ "" then
        let path2 := if p.path = "" then "/" else p.path
        let normalized := urlunsplit ⟨p.scheme, p.netloc, path2, "", ""⟩
        some (rstripSlashes normalized ++ (if p.path = "" then "/" else ""))
      else none

/-- The netloc a URL string parses to (`""` when parsing fails). -/
def hostOf (u : String) : String :=
  match urlsplit u with
  | some p => p.netloc
  | none => ""

/-! ## The crawler itself (enrichment/web_crawler.py)

External collaborators are gathered in `CrawlEnv`: the HTTP fetch
(`_fetch_html`, returning `none` on any failure), the BeautifulSoup
anchor extraction (`soup.find_all("a", href=True)`, as the list of
`href` values of the parsed HTML), `urllib.parse.urljoin`, title/text
extraction and the robots policy / language detector.  The robots cache
only memoises the parser per domain, so `can_fetch("*", url)` is a fixed
function of the URL within one crawl. -/

structure PageSnapshot where
  url : String
  title : String
  language : Option String
  raw_html : String
  extracted_text : String
deriving DecidableEq

structure CrawlEnv where
  fetch : String → Option String
  hrefs : String → List String
  urljoin : String → String → String
  titleOf : String → String
  textOf : String → String
  robotsAllowed : String → Bool
  detectLang : String → Option String

/-- `WebCrawler._detect_language`: texts shorter than 20 characters are
never submitted to the detector; detector failures yield `none`. -/
def detect_language (env : CrawlEnv) (text : String) : Option String :=
  if text.length < 20 then none else env.detectLang text

/-- `WebCrawler._extract_internal_links`.  The Python function collects
into a `set`; the model keeps first-insertion order (set iteration order
is unspecified in CPython; no claim depends on it).  A `ValueError` from
`urlsplit` on a joined link (malformed brackets) would abort the crawl
in CPython; the model skips such links — either way they are never
fetched. -/
def extract_internal_links (env : CrawlEnv) (root_url : String) (html : String) :
    List String :=
  match urlsplit root_url with
  | none => []
  | some root_parts =>
      (env.hrefs html).foldl (fun acc href =>
        let parsed := env.urljoin root_url href
        match urlsplit parsed with
        | none => acc
        | some pp =>
            if pp.netloc ≠ root_parts.netloc then acc
            else if ¬ (pp.scheme = "http" ∨ pp.scheme = "https") then acc
            else
              match normalize_url parsed with
              | some normalized =>
                  if normalized ≠ "" ∧ normalized ∉ acc then acc ++ [normalized] else acc
              | none => acc) []

/-- Crawl-loop state.  `robots_log` instruments the embedding: it records
every URL on which the loop calls `_is_allowed` (the robots check),
in order; the other three fields are the source's `to_visit`, `seen`
and `snapshots`. -/
structure CrawlState where
  to_visit : List String
  seen : List String
  snapshots : List PageSnapshot
  robots_log : List String
deriving DecidableEq

/-- The `while` loop of `WebCrawler.crawl`, with explicit fuel (the loop
always terminates: every iteration pops one frontier entry and the total
number of enqueues is bounded by the frontier cap times `max_pages`). -/
def crawlLoop (env : CrawlEnv) (root : String) (max_pages : ℕ) :
    ℕ → CrawlState → CrawlState
  | 0, st => st
  | fuel + 1, st =>
      if max_pages ≤ st.snapshots.length then st
      else
        match st.to_visit with
        | [] => st
        | target :: rest =>
            if target ∈ st.seen then
              crawlLoop env root max_pages fuel { st with to_visit := rest }
            else
              let lg := st.robots_log ++ [target]
              if ¬ env.robotsAllowed target then
                crawlLoop env root max_pages fuel
                  { st with to_visit := rest, robots_log := lg }
              else
                let seen2 := st.seen ++ [target]
                match env.fetch target with
                | none =>
                    crawlLoop env root max_pages fuel
                      { to_visit := rest, seen := seen2,
                        snapshots := st.snapshots, robots_log := lg }
                | some html =>
                    let text := env.textOf html
                    let snap : PageSnapshot :=
                      { url := target, title := env.titleOf html,
                        language := detect_language env text,
                        raw_html := html, extracted_text := text }
                    let links := extract_internal_links env root html
                    let tv2 := links.foldl (fun tv link =>
                      if link ∉ seen2 ∧ link ∉ tv ∧ tv.length < max_pages * 2 then
                        tv ++ [link]
                      else tv) rest
                    crawlLoop env root max_pages fuel
                      { to_visit := tv2, seen := seen2,
                        snapshots := st.snapshots ++ [snap], robots_log := lg }

/-- An upper bound on the number of loop iterations: at most `max_pages`
iterations enqueue, each at most `2 * max_pages` links, plus the seed. -/
def crawlFuel (max_pages : ℕ) : ℕ := 2 * max_pages * max_pages + max_pages + 1

/-- `WebCrawler.crawl`, returning the full final loop state. -/
def crawl_final (env : CrawlEnv) (max_pages : ℕ) (url : String) : CrawlState :=
  match normalize_url url with
  | none => ⟨[], [], [], []⟩
  | some root => crawlLoop env root max_pages (crawlFuel max_pages) ⟨[root], [], [], []⟩

/-- `WebCrawler.crawl` (the returned snapshot list). -/
def crawl (env : CrawlEnv) (max_pages : ℕ) (url : String) : List PageSnapshot :=
  (crawl_final env max_pages url).snapshots

end WebCrawler

/-! ## Feature engineering (features/engineering.py)

Per-page HTML signal detection is performed by BeautifulSoup queries and
compiled regexes; those leaf predicates are abstracted as the function
parameters of `PageSignalChecks` (each documented with the source
expression it stands for).  The literal substring test
`"schema.org" in snapshot.raw_html` and everything aggregating across
pages (counters, means, ordering) is embedded directly. -/

namespace Features

/-- Python `pat in s` substring test. -/
def hasInfix (pat : List Char) : List Char → Bool
  | [] => listLeads pat []
  | c :: cs => listLeads pat (c :: cs) || hasInfix pat cs

/-- `len(text.split())`: number of maximal whitespace-free runs. -/
def wordCountAux : List Char → Bool → ℕ
  | [], _ => 0
  | c :: rest, inWord =>
      if c.isWhitespace then wordCountAux rest false
      else (if inWord then 0 else 1) + wordCountAux rest true

def wordCount (s : String) : ℕ := wordCountAux s.data false

/-- `_LANGUAGE_CODE_MAP`. -/
def languageCodeMap (code : String) : Option String :=
  if code = "ar" then some "Arabic"
  else if code = "en" then some "English"
  else if code = "ar-sa" then some "Arabic"
  else if code = "en-us" then some "English"
  else none

/-- The per-snapshot label bookkeeping: `if snapshot.language:` (None and
`""` are falsy), lower-cased lookup with the raw code as default, and
`if language_label:` guarding the counter increment. -/
def languageLabel : Option String → Option String
  | none => none
  | some code =>
      if code = "" then none
      else
        let label := (languageCodeMap (strToLower code)).getD code
        if label = "" then none else some label

/-- `Counter.__getitem__`-style increment: bump the entry if the key is
present, else append `(x, 1)` at the end (dict insertion order). -/
def counterBump : List (String × ℕ) → String → List (String × ℕ)
  | [], x => [(x, 1)]
  | (k, n) :: rest, x =>
      if k = x then (k, n + 1) :: rest else (k, n) :: counterBump rest x

def counterOf (l : List String) : List (String × ℕ) := l.foldl counterBump []

/-- Stable insertion (descending by count): the new element goes after
every element with a count `≥` its own. -/
def insertDesc (x : String × ℕ) : List (String × ℕ) → List (String × ℕ)
  | [] => [x]
  | y :: ys => if x.2 ≤ y.2 then y :: insertDesc x ys else x :: y :: ys

/-- `Counter.most_common()`: CPython sorts the items with a stable sort,
descending by count; any stable descending sort computes the same list. -/
def most_common (l : List (String × ℕ)) : List (String × ℕ) :=
  l.foldl (fun acc x => insertDesc x acc) []

/-- The BeautifulSoup/regex leaf predicates of `build_feature_vector`,
abstracted (argument: the page's `raw_html`, except for the two text
regexes which receive `extracted_text`):
`jsonLdScript` = `soup.find("script", attrs={"type": "application/ld+json"})`;
`metaDescription` = `soup.find("meta", attrs={"name": "description"})`;
`openGraphMeta` = `soup.find("meta", attrs={"property": re.compile(r"^og:")})`;
`viewportMeta` = `soup.find("meta", attrs={"name": "viewport"})`;
`analyticsHit` = `_contains_patterns(raw_html, _ANALYTICS_PATTERNS)`;
`contactCta` = `_contains_contact_cta(soup)`;
`emailHit` / `phoneHit` = the email / phone `re.search` on the text. -/
structure PageSignalChecks where
  jsonLdScript : String → Bool
  metaDescription : String → Bool
  openGraphMeta : String → Bool
  viewportMeta : String → Bool
  analyticsHit : String → Bool
  contactCta : String → Bool
  emailHit : String → Bool
  phoneHit : String → Bool

/-- `build_feature_vector` from `features/engineering.py`. -/
def build_feature_vector (checks : PageSignalChecks) (business : BusinessRecord)
    (pages : List WebCrawler.PageSnapshot) : FeatureVector :=
  match pages with
  | [] =>
      { place_id := business.place_id
        business_name := business.name
        website := business.website
        total_pages := 0
        languages := []
        avg_word_count := 0
        has_structured_data := false
        has_meta_description := false
        has_open_graph := false
        has_analytics := false
        has_contact_cta := false
        has_viewport_meta := false
        has_email_address := false
        has_phone_number := false }
  | _ :: _ =>
      let language_counter := counterOf (pages.filterMap (fun s => languageLabel s.language))
      let word_counts := pages.map (fun s => wordCount s.extracted_text)
      let languages := (most_common language_counter).map Prod.fst
      let avg_words : ℚ :=
        if word_counts = [] then 0
        else ((word_counts.foldl (· + ·) 0 : ℕ) : ℚ) / (word_counts.length : ℚ)
      { place_id := business.place_id
        business_name := business.name
        website := business.website
        total_pages := pages.length
        languages := languages
        avg_word_count := avg_words
        has_structured_data := pages.any (fun s =>
          checks.jsonLdScript s.raw_html || hasInfix "schema.org".data s.raw_html.data)
        has_meta_description := pages.any (fun s => checks.metaDescription s.raw_html)
        has_open_graph := pages.any (fun s => checks.openGraphMeta s.raw_html)
        has_analytics := pages.any (fun s => checks.analyticsHit s.raw_html)
        has_contact_cta := pages.any (fun s => checks.contactCta s.raw_html)
        has_viewport_meta := pages.any (fun s => checks.viewportMeta s.raw_html)
        has_email_address := pages.any (fun s => checks.emailHit s.extracted_text)
        has_phone_number := pages.any (fun s => checks.phoneHit s.extracted_text) }

/-! Specification-side vocabulary for the language-ordering property:
the in-order list of counted labels, occurrence counts and first
occurrence positions.  `labelsOf` preserves the snapshot order, so a
position in `labelsOf pages` represents the position of the first
snapshot contributing that label. -/

/-- The in-order list of language labels the per-snapshot bookkeeping
counts (one entry per snapshot that passes the truthiness guards). -/
def labelsOf (pages : List WebCrawler.PageSnapshot) : List String :=
  pages.filterMap (fun s => languageLabel s.language)

/-- Number of occurrences of `x` in `l`. -/
def occCount (x : String) : List String → ℕ
  | [] => 0
  | y :: ys => (if y = x then 1 else 0) + occCount x ys

/-- Index of the first occurrence of `x` in `l` (`l.length` if absent). -/
def firstIdx (x : String) : List String → ℕ
  | [] => 0
  | y :: ys => if y = x then 0 else firstIdx x ys + 1

end Features

/-! ## Concrete test inputs -/

/-- A maximally-positive business: https website, rating 4.8, 200 ratings. -/
def maxBusiness : BusinessRecord :=
  { place_id := "place-max"
    name := "Max Clinic"
    address := "Riyadh"
    location := ⟨0, 0⟩
    types := ["clinic"]
    rating := some (24/5)
    user_ratings_total := some 200
    website := some "https://max.example"
    phone_number := some "+966500000000"
    google_maps_url := "https://maps.example/max" }

/-- A maximally-positive feature vector: all eight booleans true,
`avg_word_count` 500, 5 pages, two detected languages. -/
def maxFeatures : FeatureVector :=
  { place_id := "place-max"
    business_name := "Max Clinic"
    website := some "https://max.example"
    total_pages := 5
    languages := ["Arabic", "English"]
    avg_word_count := 500
    has_structured_data := true
    has_meta_description := true
    has_open_graph := true
    has_analytics := true
    has_contact_cta := true
    has_viewport_meta := true
    has_email_address := true
    has_phone_number := true }

/-- The assessment the scorer produces on the maximal input (LLM and
prompt builders instantiated trivially; they feed only the narrative
strings). -/
def maxAssessment : MaturityAssessment :=
  DigitalMaturityScorer.score (fun _ => "") (fun _ _ _ _ => "") (fun _ _ _ _ => "")
    maxBusiness maxFeatures

/-- Three snapshots with detected languages ar, en, en. -/
def triPages : List WebCrawler.PageSnapshot :=
  [{ url := "https://s.test/", title := "A", language := some "ar",
     raw_html := "", extracted_text := "" },
   { url := "https://s.test/a", title := "B", language := some "en",
     raw_html := "", extracted_text := "" },
   { url := "https://s.test/b", title := "C", language := some "en",
     raw_html := "", extracted_text := "" }]

/-- Trivial (all-false) instantiation of the abstracted per-page signal
detectors. -/
def noSignals : Features.PageSignalChecks :=
  { jsonLdScript := fun _ => false
    metaDescription := fun _ => false
    openGraphMeta := fun _ => false
    viewportMeta := fun _ => false
    analyticsHit := fun _ => false
    contactCta := fun _ => false
    emailHit := fun _ => false
    phoneHit := fun _ => false }

/-- A small site fixture: the root page links to `/b` (robots-disallowed)
and `/e`; `/e` links to `/f`; `/f` links back to `/b`. -/
def blockedEnv : WebCrawler.CrawlEnv :=
  { fetch := fun u =>
      if u = "http://s.test/" then some "A"
      else if u = "http://s.test/e" then some "E"
      else if u = "http://s.test/f" then some "F"
      else none
    hrefs := fun h =>
      if h = "A" then ["/b", "/e"]
      else if h = "E" then ["/f"]
      else if h = "F" then ["/b"]
      else []
    urljoin := fun _ href => "http://s.test" ++ href
    titleOf := fun _ => ""
    textOf := fun _ => ""
    robotsAllowed := fun u => u != "http://s.test/b"
    detectLang := fun _ => none }

/-- An environment where every fetch fails. -/
def offlineEnv : WebCrawler.CrawlEnv :=
  { fetch := fun _ => none
    hrefs := fun _ => []
    urljoin := fun _ href => href
    titleOf := fun _ => ""
    textOf := fun _ => ""
    robotsAllowed := fun _ => true
    detectLang := fun _ => none }

/-! # Theorems -/

/-! ## Rounding helper lemmas -/

theorem roundHalfEven_le {q : ℚ} {c : ℤ} (h : q ≤ (c : ℚ)) : roundHalfEven q ≤ c := by
  have hf : ⌊q⌋ ≤ c := by simpa using Int.floor_le_floor h
  have hfq : (⌊q⌋ : ℚ) ≤ q := Int.floor_le q
  unfold roundHalfEven
  split_ifs with h1 h2 h3
  · exact hf
  · have h4 : (⌊q⌋ : ℚ) < q := by linarith
    have h5 : ⌊q⌋ < c := by exact_mod_cast lt_of_lt_of_le h4 h
    omega
  · exact hf
  · have h1' : (1 : ℚ)/2 ≤ q - ⌊q⌋ := not_lt.mp h1
    have h4 : (⌊q⌋ : ℚ) < q := by linarith
    have h5 : ⌊q⌋ < c := by exact_mod_cast lt_of_lt_of_le h4 h
    omega

theorem le_roundHalfEven {q : ℚ} {c : ℤ} (h : (c : ℚ) ≤ q) : c ≤ roundHalfEven q := by
  have hf : c ≤ ⌊q⌋ := Int.le_floor.mpr h
  unfold roundHalfEven
  split_ifs <;> omega

theorem pyRound2_le {q : ℚ} {c : ℤ} (h : q ≤ (c : ℚ) / 100) : pyRound2 q ≤ (c : ℚ) / 100 := by
  have h1 : q * 100 ≤ (c : ℚ) := by linarith
  have h2 : roundHalfEven (q * 100) ≤ c := roundHalfEven_le h1
  have h3 : ((roundHalfEven (q * 100) : ℤ) : ℚ) ≤ (c : ℚ) := by exact_mod_cast h2
  unfold pyRound2
  linarith

theorem le_pyRound2 {q : ℚ} {c : ℤ} (h : (c : ℚ) / 100 ≤ q) : (c : ℚ) / 100 ≤ pyRound2 q := by
  have h1 : (c : ℚ) ≤ q * 100 := by linarith
  have h2 : c ≤ roundHalfEven (q * 100) := le_roundHalfEven h1
  have h3 : ((c : ℤ) : ℚ) ≤ (roundHalfEven (q * 100) : ℚ) := by exact_mod_cast h2
  unfold pyRound2
  linarith

/-! ## Subscore bounds (each subscore is its base plus nonnegative
bonuses, clamped above by 100) -/

theorem score_technical_bounds (b : BusinessRecord) (f : FeatureVector) :
    50 ≤ DigitalMaturityScorer.score_technical b f ∧
      DigitalMaturityScorer.score_technical b f ≤ 100 := by
  simp only [DigitalMaturityScorer.score_technical]
  split_ifs <;> constructor <;> norm_num

theorem score_seo_bounds (f : FeatureVector) :
    40 ≤ DigitalMaturityScorer.score_seo f ∧ DigitalMaturityScorer.score_seo f ≤ 100 := by
  simp only [DigitalMaturityScorer.score_seo]
  split_ifs <;> constructor <;> norm_num

theorem score_content_bounds (f : FeatureVector) :
    35 ≤ DigitalMaturityScorer.score_content f ∧
      DigitalMaturityScorer.score_content f ≤ 100 := by
  simp only [DigitalMaturityScorer.score_content]
  split_ifs <;> constructor <;> norm_num

theorem score_trust_bounds (b : BusinessRecord) (f : FeatureVector) :
    45 ≤ DigitalMaturityScorer.score_trust b f ∧
      DigitalMaturityScorer.score_trust b f ≤ 100 := by
  simp only [DigitalMaturityScorer.score_trust]
  split_ifs <;> constructor <;> norm_num

theorem score_subscores_eq (llm : String → String)
    (bp rp : BusinessRecord → FeatureVector → SubScores → String → String)
    (b : BusinessRecord) (f : FeatureVector) :
    (DigitalMaturityScorer.score llm bp rp b f).subscores =
      DigitalMaturityScorer.calculate_subscores b f := rfl

theorem score_overall_eq (llm : String → String)
    (bp rp : BusinessRecord → FeatureVector → SubScores → String → String)
    (b : BusinessRecord) (f : FeatureVector) :
    (DigitalMaturityScorer.score llm bp rp b f).overall_score =
      pyRound2 (((DigitalMaturityScorer.score llm bp rp b f).subscores.technical +
        (DigitalMaturityScorer.score llm bp rp b f).subscores.seo +
        (DigitalMaturityScorer.score llm bp rp b f).subscores.content +
        (DigitalMaturityScorer.score llm bp rp b f).subscores.trust) / 4) := rfl

/-! ## Claim C6 -/

/-- C6: for every business record and feature vector, each of the four
subscores lies in [0,100], the `overall_score` of the returned
`MaturityAssessment` equals `round((technical + seo + content + trust) / 4, 2)`,
and hence `0 ≤ overall_score ≤ 100`. -/
theorem claim_C6_overall_is_rounded_mean (llm : String → String)
    (bp rp : BusinessRecord → FeatureVector → SubScores → String → String)
    (b : BusinessRecord) (f : FeatureVector) :
    (0 ≤ (DigitalMaturityScorer.score llm bp rp b f).subscores.technical ∧
      (DigitalMaturityScorer.score llm bp rp b f).subscores.technical ≤ 100) ∧
    (0 ≤ (DigitalMaturityScorer.score llm bp rp b f).subscores.seo ∧
      (DigitalMaturityScorer.score llm bp rp b f).subscores.seo ≤ 100) ∧
    (0 ≤ (DigitalMaturityScorer.score llm bp rp b f).subscores.content ∧
      (DigitalMaturityScorer.score llm bp rp b f).subscores.content ≤ 100) ∧
    (0 ≤ (DigitalMaturityScorer.score llm bp rp b f).subscores.trust ∧
      (DigitalMaturityScorer.score llm bp rp b f).subscores.trust ≤ 100) ∧
    (DigitalMaturityScorer.score llm bp rp b f).overall_score =
      pyRound2 (((DigitalMaturityScorer.score llm bp rp b f).subscores.technical +
        (DigitalMaturityScorer.score llm bp rp b f).subscores.seo +
        (DigitalMaturityScorer.score llm bp rp b f).subscores.content +
        (DigitalMaturityScorer.score llm bp rp b f).subscores.trust) / 4) ∧
    0 ≤ (DigitalMaturityScorer.score llm bp rp b f).overall_score ∧
    (DigitalMaturityScorer.score llm bp rp b f).overall_score ≤ 100 := by
  have ht := score_technical_bounds b f
  have hseo := score_seo_bounds f
  have hc := score_content_bounds f
  have htr := score_trust_bounds b f
  have h1 : (DigitalMaturityScorer.score llm bp rp b f).subscores.technical =
      DigitalMaturityScorer.score_technical b f := rfl
  have h2 : (DigitalMaturityScorer.score llm bp rp b f).subscores.seo =
      DigitalMaturityScorer.score_seo f := rfl
  have h3 : (DigitalMaturityScorer.score llm bp rp b f).subscores.content =
      DigitalMaturityScorer.score_content f := rfl
  have h4 : (DigitalMaturityScorer.score llm bp rp b f).subscores.trust =
      DigitalMaturityScorer.score_trust b f := rfl
  have hov : (DigitalMaturityScorer.score llm bp rp b f).overall_score =
      pyRound2 ((DigitalMaturityScorer.score_technical b f + DigitalMaturityScorer.score_seo f +
        DigitalMaturityScorer.score_content f + DigitalMaturityScorer.score_trust b f) / 4) := rfl
  refine ⟨?_, ?_, ?_, ?_, rfl, ?_, ?_⟩
  · rw [h1]
    exact ⟨by linarith [ht.1], ht.2⟩
  · rw [h2]
    exact ⟨by linarith [hseo.1], hseo.2⟩
  · rw [h3]
    exact ⟨by linarith [hc.1], hc.2⟩
  · rw [h4]
    exact ⟨by linarith [htr.1], htr.2⟩
  · rw [hov]
    have h0 : ((0 : ℤ) : ℚ) / 100 ≤
        (DigitalMaturityScorer.score_technical b f + DigitalMaturityScorer.score_seo f +
          DigitalMaturityScorer.score_content f + DigitalMaturityScorer.score_trust b f) / 4 := by
      push_cast
      linarith [ht.1, hseo.1, hc.1, htr.1]
    have hle := le_pyRound2 h0
    norm_num at hle
    exact hle
  · rw [hov]
    have h0 : (DigitalMaturityScorer.score_technical b f + DigitalMaturityScorer.score_seo f +
        DigitalMaturityScorer.score_content f + DigitalMaturityScorer.score_trust b f) / 4 ≤
        ((10000 : ℤ) : ℚ) / 100 := by
      push_cast
      linarith [ht.2, hseo.2, hc.2, htr.2]
    have hle := pyRound2_le h0
    norm_num at hle
    exact hle

/-! ## Claim C10 -/

/-- C10: every subscore is bounded below by its base (technical ≥ 50,
seo ≥ 40, content ≥ 35, trust ≥ 45), hence every assessment produced by
`DigitalMaturityScorer.score` has `overall_score ≥ 42.5`, and
`OfferGenerator.analyze_package_fit` on such an assessment never returns
`ServicePackage.BASIC`. -/
theorem claim_C10_never_basic (llm : String → String)
    (bp rp : BusinessRecord → FeatureVector → SubScores → String → String)
    (b : BusinessRecord) (f : FeatureVector)
    (fv : FeatureVector) (ind : String) (titles : List String) (loc : String) :
    50 ≤ (DigitalMaturityScorer.score llm bp rp b f).subscores.technical ∧
    40 ≤ (DigitalMaturityScorer.score llm bp rp b f).subscores.seo ∧
    35 ≤ (DigitalMaturityScorer.score llm bp rp b f).subscores.content ∧
    45 ≤ (DigitalMaturityScorer.score llm bp rp b f).subscores.trust ∧
    85/2 ≤ (DigitalMaturityScorer.score llm bp rp b f).overall_score ∧
    OfferGenerator.analyze_package_fit
        ⟨b, fv, DigitalMaturityScorer.score llm bp rp b f, ind, titles, loc⟩ ≠
      ServicePackage.BASIC := by
  have ht := score_technical_bounds b f
  have hseo := score_seo_bounds f
  have hc := score_content_bounds f
  have htr := score_trust_bounds b f
  have h1 : (DigitalMaturityScorer.score llm bp rp b f).subscores.technical =
      DigitalMaturityScorer.score_technical b f := rfl
  have h2 : (DigitalMaturityScorer.score llm bp rp b f).subscores.seo =
      DigitalMaturityScorer.score_seo f := rfl
  have h3 : (DigitalMaturityScorer.score llm bp rp b f).subscores.content =
      DigitalMaturityScorer.score_content f := rfl
  have h4 : (DigitalMaturityScorer.score llm bp rp b f).subscores.trust =
      DigitalMaturityScorer.score_trust b f := rfl
  have hov : (DigitalMaturityScorer.score llm bp rp b f).overall_score =
      pyRound2 ((DigitalMaturityScorer.score_technical b f + DigitalMaturityScorer.score_seo f +
        DigitalMaturityScorer.score_content f + DigitalMaturityScorer.score_trust b f) / 4) := rfl
  have hover : 85/2 ≤ (DigitalMaturityScorer.score llm bp rp b f).overall_score := by
    rw [hov]
    have h0 : ((4250 : ℤ) : ℚ) / 100 ≤
        (DigitalMaturityScorer.score_technical b f + DigitalMaturityScorer.score_seo f +
          DigitalMaturityScorer.score_content f + DigitalMaturityScorer.score_trust b f) / 4 := by
      push_cast
      linarith [ht.1, hseo.1, hc.1, htr.1]
    have hle := le_pyRound2 h0
    norm_num at hle
    linarith
  refine ⟨by rw [h1]; exact ht.1, by rw [h2]; exact hseo.1, by rw [h3]; exact hc.1,
    by rw [h4]; exact htr.1, hover, ?_⟩
  simp only [OfferGenerator.analyze_package_fit]
  have hnot : ¬ (DigitalMaturityScorer.score llm bp rp b f).overall_score < 30 := by
    intro hlt
    linarith
  rw [if_neg hnot]
  split_ifs <;> simp

/-- C10 witness: the package choice instantiated on the maximal concrete
input. -/
theorem claim_C10_witness :
    OfferGenerator.analyze_package_fit
        ⟨maxBusiness, maxFeatures, maxAssessment, "healthcare", [], "ar-SA"⟩ ≠
      ServicePackage.BASIC :=
  (claim_C10_never_basic (fun _ => "") (fun _ _ _ _ => "") (fun _ _ _ _ => "")
    maxBusiness maxFeatures maxFeatures "healthcare" [] "ar-SA").2.2.2.2.2

/-! ## Claim C1 -/

theorem pyRound2_max_mean : pyRound2 ((100 + 100 + 80 + 90 : ℚ) / 4) = 185/2 := by
  unfold pyRound2 roundHalfEven
  norm_num

theorem maxAssessment_subscores_eval :
    maxAssessment.subscores.technical = 100 ∧ maxAssessment.subscores.seo = 100 ∧
    maxAssessment.subscores.content = 80 ∧ maxAssessment.subscores.trust = 90 := by
  have hw : DigitalMaturityScorer.websiteIsHttps maxBusiness.website = true := by decide
  have hu : DigitalMaturityScorer.ratingsTotalOver50 (some 200) = true := by decide
  refine ⟨?_, ?_, ?_, ?_⟩
  · show DigitalMaturityScorer.score_technical maxBusiness maxFeatures = 100
    simp only [DigitalMaturityScorer.score_technical, maxFeatures, hw]
    norm_num
  · show DigitalMaturityScorer.score_seo maxFeatures = 100
    simp only [DigitalMaturityScorer.score_seo, maxFeatures]
    norm_num
  · show DigitalMaturityScorer.score_content maxFeatures = 80
    simp only [DigitalMaturityScorer.score_content, maxFeatures]
    norm_num
  · show DigitalMaturityScorer.score_trust maxBusiness maxFeatures = 90
    simp only [DigitalMaturityScorer.score_trust, maxBusiness, maxFeatures, hu]
    norm_num

theorem maxAssessment_overall_eval : maxAssessment.overall_score = 185/2 := by
  have h := maxAssessment_subscores_eval
  have hov : maxAssessment.overall_score =
      pyRound2 ((maxAssessment.subscores.technical + maxAssessment.subscores.seo +
        maxAssessment.subscores.content + maxAssessment.subscores.trust) / 4) := rfl
  rw [hov, h.1, h.2.1, h.2.2.1, h.2.2.2]
  exact pyRound2_max_mean

/-- C1 counterexample: on the maximally-positive input (https website,
rating 4.8, 200 ratings, all eight booleans true, avg_word_count 500,
5 pages, 2 languages) the content subscore is 80 and the trust subscore
is 90, so not every subscore equals 100, and the overall score is 92.5,
not 100.0. -/
theorem claim_C1_counterexample :
    maxAssessment.subscores.technical = 100 ∧
    maxAssessment.subscores.seo = 100 ∧
    maxAssessment.subscores.content = 80 ∧
    maxAssessment.subscores.trust = 90 ∧
    maxAssessment.overall_score = 185/2 ∧
    ¬ (maxAssessment.subscores.content = 100 ∧ maxAssessment.subscores.trust = 100 ∧
        maxAssessment.overall_score = 100) := by
  have h := maxAssessment_subscores_eval
  have ho := maxAssessment_overall_eval
  refine ⟨h.1, h.2.1, h.2.2.1, h.2.2.2, ho, ?_⟩
  rintro ⟨hcontra, -, -⟩
  rw [h.2.2.1] at hcontra
  norm_num at hcontra

/-- C1 amended: for every maximally-positive input (https website,
rating 4.8, 200 ratings, all booleans true, avg_word_count 500, 5 pages,
at least 2 languages) the technical and seo subscores saturate at 100,
while the content subscore reaches its attainable maximum 80 and the
trust subscore its attainable maximum 90; the overall score is 92.5,
not 100.0. -/
theorem claim_C1_amended (llm : String → String)
    (bp rp : BusinessRecord → FeatureVector → SubScores → String → String)
    (b : BusinessRecord) (f : FeatureVector)
    (hw : DigitalMaturityScorer.websiteIsHttps b.website = true)
    (hr : b.rating = some (24/5))
    (hu : b.user_ratings_total = some 200)
    (h1 : f.has_structured_data = true)
    (h2 : f.has_meta_description = true)
    (h3 : f.has_open_graph = true)
    (h4 : f.has_analytics = true)
    (h5 : f.has_contact_cta = true)
    (h6 : f.has_viewport_meta = true)
    (h7 : f.has_email_address = true)
    (h8 : f.has_phone_number = true)
    (havg : f.avg_word_count = 500)
    (hp : f.total_pages = 5)
    (hl : 2 ≤ f.languages.length) :
    (DigitalMaturityScorer.score llm bp rp b f).subscores.technical = 100 ∧
    (DigitalMaturityScorer.score llm bp rp b f).subscores.seo = 100 ∧
    (DigitalMaturityScorer.score llm bp rp b f).subscores.content = 80 ∧
    (DigitalMaturityScorer.score llm bp rp b f).subscores.trust = 90 ∧
    (DigitalMaturityScorer.score llm bp rp b f).overall_score = 185/2 := by
  have htech : DigitalMaturityScorer.score_technical b f = 100 := by
    simp only [DigitalMaturityScorer.score_technical, hw, h1, h4, h6]
    norm_num
  have hseo : DigitalMaturityScorer.score_seo f = 100 := by
    simp only [DigitalMaturityScorer.score_seo, h2, h3, havg, if_pos hl]
    norm_num
  have hcont : DigitalMaturityScorer.score_content f = 80 := by
    simp only [DigitalMaturityScorer.score_content, h5, havg, hp]
    norm_num
  have htrust : DigitalMaturityScorer.score_trust b f = 90 := by
    simp only [DigitalMaturityScorer.score_trust, hr, hu, h7, h8,
      DigitalMaturityScorer.ratingsTotalOver50]
    norm_num
  have e1 : (DigitalMaturityScorer.score llm bp rp b f).subscores.technical =
      DigitalMaturityScorer.score_technical b f := rfl
  have e2 : (DigitalMaturityScorer.score llm bp rp b f).subscores.seo =
      DigitalMaturityScorer.score_seo f := rfl
  have e3 : (DigitalMaturityScorer.score llm bp rp b f).subscores.content =
      DigitalMaturityScorer.score_content f := rfl
  have e4 : (DigitalMaturityScorer.score llm bp rp b f).subscores.trust =
      DigitalMaturityScorer.score_trust b f := rfl
  have hov : (DigitalMaturityScorer.score llm bp rp b f).overall_score =
      pyRound2 ((DigitalMaturityScorer.score_technical b f + DigitalMaturityScorer.score_seo f +
        DigitalMaturityScorer.score_content f + DigitalMaturityScorer.score_trust b f) / 4) := rfl
  refine ⟨by rw [e1, htech], by rw [e2, hseo], by rw [e3, hcont], by rw [e4, htrust], ?_⟩
  rw [hov, htech, hseo, hcont, htrust]
  exact pyRound2_max_mean

/-- C1 witness: the amended statement instantiated on the concrete
maximal input. -/
theorem claim_C1_witness :
    DigitalMaturityScorer.websiteIsHttps maxBusiness.website = true ∧
    maxFeatures.avg_word_count = 500 ∧
    maxAssessment.subscores.content = 80 ∧ maxAssessment.overall_score = 185/2 := by
  refine ⟨by decide, rfl, ?_, ?_⟩
  · exact (claim_C1_amended (fun _ => "") (fun _ _ _ _ => "") (fun _ _ _ _ => "")
      maxBusiness maxFeatures (by decide) rfl rfl rfl rfl rfl rfl rfl rfl rfl rfl
      rfl rfl (by decide)).2.2.1
  · exact (claim_C1_amended (fun _ => "") (fun _ _ _ _ => "") (fun _ _ _ _ => "")
      maxBusiness maxFeatures (by decide) rfl rfl rfl rfl rfl rfl rfl rfl rfl rfl
      rfl rfl (by decide)).2.2.2.2

/-! ## Claims C2 and C3 (URL normalization at the site root)

`_normalize_url` restores the root's trailing slash with
`("" if parsed.path else "/")`, i.e. only when the *original* path was
empty.  A root URL written with an explicit `/` therefore loses its
trailing slash, while the same root without the slash gains one: the
two spellings of the root normalize to *different* strings and
normalization is not idempotent there. -/

/-- C2 (code bug evidence): `https://example.com` and
`https://example.com/` differ only by a trailing slash, yet normalize to
different results; and the root spelled with an explicit `/` normalizes
to a string with no trailing slash, contradicting the documented
"root always keeps exactly one trailing `/`" dedup key. -/
theorem claim_C2_root_normalization_bug :
    WebCrawler.normalize_url "https://example.com" = some "https://example.com/" ∧
    WebCrawler.normalize_url "https://example.com/" = some "https://example.com" ∧
    WebCrawler.normalize_url "https://example.com" ≠
      WebCrawler.normalize_url "https://example.com/" := by
  refine ⟨by decide, by decide, by decide⟩

/-- C3 (code bug evidence): normalization is not idempotent on the valid
URL `https://example.com/`: one application yields `https://example.com`,
a second application yields `https://example.com/` again. -/
theorem claim_C3_not_idempotent :
    WebCrawler.normalize_url "https://example.com/" = some "https://example.com" ∧
    WebCrawler.normalize_url "https://example.com" = some "https://example.com/" ∧
    Option.bind (WebCrawler.normalize_url "https://example.com/") WebCrawler.normalize_url ≠
      WebCrawler.normalize_url "https://example.com/" := by
  refine ⟨by decide, by decide, by decide⟩

/-! ## Claim C4 (retry policy of the page fetcher) -/

theorem retryable_true (e : Http.GetError) : Http.retryable e = true := by
  cases e <;> rfl

/-- C4 counterexample: the retry decorator lists `HttpError` among the
retryable exception types, so a first-attempt HTTP 500 response — which
raises `HttpError` — is retried, and a second-attempt 200 response is
returned; the claim says the call must fail immediately on the first
attempt without any retry. -/
theorem claim_C4_counterexample :
    Http.singleAttempt "https://api.test" (Http.Outcome.response 500 "oops") =
      Except.error (Http.GetError.httpError 500 "https://api.test") ∧
    Http.get "https://api.test"
        [Http.Outcome.response 500 "oops", Http.Outcome.response 200 "ok"] =
      Except.ok { status := 200, body := "ok" } := by
  refine ⟨rfl, rfl⟩

/-- C4 amended: `get` retries *both* transport-level failures and HTTP
error responses (status ≥ 400, raised as `HttpError`), up to 3 attempts
with exponential backoff (waits 1s then 2s, always within [1s, 8s]);
after a failing third attempt the final exception is re-raised. -/
theorem claim_C4_amended :
    (∀ (url : String) (o₁ o₂ : Http.Outcome) (rest : List Http.Outcome)
        (e : Http.GetError) (r : Http.HttpResponse),
        Http.singleAttempt url o₁ = Except.error e →
        Http.singleAttempt url o₂ = Except.ok r →
        Http.get url (o₁ :: o₂ :: rest) = Except.ok r) ∧
    (∀ (url : String) (o₁ o₂ o₃ : Http.Outcome) (rest : List Http.Outcome)
        (e₁ e₂ : Http.GetError),
        Http.singleAttempt url o₁ = Except.error e₁ →
        Http.singleAttempt url o₂ = Except.error e₂ →
        Http.get url (o₁ :: o₂ :: o₃ :: rest) = Http.singleAttempt url o₃) ∧
    Http.waitSeconds 1 = 1 ∧ Http.waitSeconds 2 = 2 ∧
    (∀ n : ℕ, 1 ≤ Http.waitSeconds n ∧ Http.waitSeconds n ≤ 8) := by
  refine ⟨?_, ?_, ?_, ?_, ?_⟩
  · intro url o₁ o₂ rest e r h1 h2
    simp only [Http.get, Http.retryLoop, h1, retryable_true, h2]
    norm_num
  · intro url o₁ o₂ o₃ rest e₁ e₂ h1 h2
    simp only [Http.get, Http.retryLoop, h1, h2, retryable_true]
    norm_num
    cases h3 : Http.singleAttempt url o₃ with
    | ok r => simp [Http.retryLoop, h3]
    | error e => simp [Http.retryLoop, h3, retryable_true]
  · simp only [Http.waitSeconds]
    norm_num
  · simp only [Http.waitSeconds]
    norm_num
  · intro n
    constructor
    · exact le_max_left _ _
    · refine max_le (by norm_num) ?_
      exact le_trans (min_le_right _ _) (by norm_num)

/-- C4 witness: a transport error on the first attempt followed by a 200
response is returned successfully by the retry loop. -/
theorem claim_C4_witness :
    Http.get "https://w.test" [Http.Outcome.transportError, Http.Outcome.response 200 "ok"] =
      Except.ok { status := 200, body := "ok" } :=
  claim_C4_amended.1 "https://w.test" Http.Outcome.transportError
    (Http.Outcome.response 200 "ok") [] Http.GetError.requestException
    { status := 200, body := "ok" } rfl rfl

/-! ## Claim C8 (feature vector of an empty page list) -/

/-- C8: for every business record (and every instantiation of the
per-page signal detectors), `build_feature_vector` applied to an empty
page list returns the all-false/zero feature vector: `total_pages = 0`,
all eight booleans false, `avg_word_count = 0.0`, `languages = []`. -/
theorem claim_C8_empty_pages (checks : Features.PageSignalChecks)
    (business : BusinessRecord) :
    Features.build_feature_vector checks business [] =
      { place_id := business.place_id
        business_name := business.name
        website := business.website
        total_pages := 0
        languages := []
        avg_word_count := 0
        has_structured_data := false
        has_meta_description := false
        has_open_graph := false
        has_analytics := false
        has_contact_cta := false
        has_viewport_meta := false
        has_email_address := false
        has_phone_number := false } := rfl

/-! ## Claim C9: counter/sort lemmas -/

namespace Features

theorem occCount_append (x : String) (p q : List String) :
    occCount x (p ++ q) = occCount x p + occCount x q := by
  induction p with
  | nil => simp [occCount]
  | cons y ys ih =>
      simp [List.append_eq, List.cons_append, occCount, ih, Nat.add_assoc]

theorem occCount_eq_zero_of_not_mem {x : String} {p : List String} (h : x ∉ p) :
    occCount x p = 0 := by
  induction p with
  | nil => rfl
  | cons y ys ih =>
      simp only [List.mem_cons, not_or] at h
      have hne : ¬ y = x := fun hyx => h.1 hyx.symm
      simp [occCount, if_neg hne, ih h.2]

theorem firstIdx_append_of_mem {x : String} {p : List String} (h : x ∈ p) (q : List String) :
    firstIdx x (p ++ q) = firstIdx x p := by
  induction p with
  | nil => cases h
  | cons y ys ih =>
      by_cases hyx : y = x
      · simp [firstIdx, hyx]
      · have hx : x ∈ ys := by
          rcases List.mem_cons.mp h with h1 | h1
          · exact absurd h1.symm hyx
          · exact h1
        simp [firstIdx, hyx, ih hx]

theorem firstIdx_lt_length_of_mem {x : String} {p : List String} (h : x ∈ p) :
    firstIdx x p < p.length := by
  induction p with
  | nil => cases h
  | cons y ys ih =>
      by_cases hyx : y = x
      · simp [firstIdx, hyx]
      · have hx : x ∈ ys := by
          rcases List.mem_cons.mp h with h1 | h1
          · exact absurd h1.symm hyx
          · exact h1
        simp only [firstIdx, if_neg hyx, List.length_cons]
        exact Nat.succ_lt_succ (ih hx)

theorem firstIdx_append_of_not_mem {x : String} {p : List String} (h : x ∉ p)
    (q : List String) :
    firstIdx x (p ++ q) = p.length + firstIdx x q := by
  induction p with
  | nil => simp [firstIdx]
  | cons y ys ih =>
      simp only [List.mem_cons, not_or] at h
      have hne : ¬ y = x := fun hyx => h.1 hyx.symm
      simp only [List.append_eq, List.cons_append, firstIdx, if_neg hne, ih h.2,
        List.length_cons]
      omega

theorem counterBump_keys (acc : List (String × ℕ)) (x : String) :
    (counterBump acc x).map Prod.fst =
      if x ∈ acc.map Prod.fst then acc.map Prod.fst else acc.map Prod.fst ++ [x] := by
  induction acc with
  | nil => simp [counterBump]
  | cons pr rest ih =>
      obtain ⟨k, n⟩ := pr
      by_cases hkx : k = x
      · simp [counterBump, hkx]
      · have hxk : x ≠ k := fun hh => hkx hh.symm
        by_cases hx : x ∈ rest.map Prod.fst
        · simp [counterBump, if_neg hkx, ih, hx, hxk]
        · simp [counterBump, if_neg hkx, ih, hx, hxk]

theorem counterBump_mem_cases (x : String) (acc : List (String × ℕ))
    (hnd : (acc.map Prod.fst).Nodup) :
    ∀ pr ∈ counterBump acc x,
      (pr ∈ acc ∧ pr.1 ≠ x) ∨ (∃ n, pr = (x, n + 1) ∧ (x, n) ∈ acc) ∨
      (pr = (x, 1) ∧ x ∉ acc.map Prod.fst) := by
  induction acc with
  | nil =>
      intro pr hpr
      simp only [counterBump, List.mem_singleton] at hpr
      exact Or.inr (Or.inr ⟨hpr, by simp⟩)
  | cons hd rest ih =>
      obtain ⟨k, n⟩ := hd
      intro pr hpr
      have hnd2 : k ∉ rest.map Prod.fst ∧ (rest.map Prod.fst).Nodup := by
        rw [List.map_cons, List.nodup_cons] at hnd
        exact hnd
      by_cases hkx : k = x
      · simp only [counterBump] at hpr
        rw [if_pos hkx] at hpr
        rcases List.mem_cons.mp hpr with h1 | h1
        · refine Or.inr (Or.inl ⟨n, ?_, ?_⟩)
          · rw [h1, hkx]
          · rw [← hkx]
            exact List.mem_cons_self _ _
        · have hne : pr.1 ≠ x := by
            intro hh
            refine hnd2.1 ?_
            rw [hkx, ← hh]
            exact List.mem_map.mpr ⟨pr, h1, rfl⟩
          exact Or.inl ⟨List.mem_cons_of_mem _ h1, hne⟩
      · simp only [counterBump] at hpr
        rw [if_neg hkx] at hpr
        rcases List.mem_cons.mp hpr with h1 | h1
        · refine Or.inl ⟨by rw [h1]; exact List.mem_cons_self _ _, ?_⟩
          rw [h1]
          exact hkx
        · rcases ih hnd2.2 pr h1 with h2 | h2 | h2
          · exact Or.inl ⟨List.mem_cons_of_mem _ h2.1, h2.2⟩
          · obtain ⟨m, hm1, hm2⟩ := h2
            exact Or.inr (Or.inl ⟨m, hm1, List.mem_cons_of_mem _ hm2⟩)
          · refine Or.inr (Or.inr ⟨h2.1, ?_⟩)
            simp only [List.map_cons, List.mem_cons, not_or]
            exact ⟨fun hh => hkx hh.symm, h2.2⟩

theorem counterFold_invariant (L : List String) :
    ∀ (l p : List String) (acc : List (String × ℕ)),
      L = p ++ l →
      (∀ pr ∈ acc, pr.2 = occCount pr.1 p) →
      (acc.map Prod.fst).Nodup →
      (∀ x, x ∈ acc.map Prod.fst ↔ x ∈ p) →
      (acc.map Prod.fst).Pairwise (fun a b => firstIdx a L < firstIdx b L) →
      (∀ pr ∈ l.foldl counterBump acc, pr.2 = occCount pr.1 L) ∧
      ((l.foldl counterBump acc).map Prod.fst).Nodup ∧
      (∀ x, x ∈ (l.foldl counterBump acc).map Prod.fst ↔ x ∈ L) ∧
      ((l.foldl counterBump acc).map Prod.fst).Pairwise
        (fun a b => firstIdx a L < firstIdx b L) := by
  intro l
  induction l with
  | nil =>
      intro p acc hL hcount hnd hmem hpw
      have hLp : L = p := by simpa using hL
      subst hLp
      simp only [List.foldl_nil]
      exact ⟨hcount, hnd, hmem, hpw⟩
  | cons x l' ih =>
      intro p acc hL hcount hnd hmem hpw
      simp only [List.foldl_cons]
      have hL' : L = (p ++ [x]) ++ l' := by
        rw [hL, List.append_assoc]
        rfl
      refine ih (p ++ [x]) (counterBump acc x) hL' ?_ ?_ ?_ ?_
      · intro pr hpr
        rcases counterBump_mem_cases x acc hnd pr hpr with h1 | h1 | h1
        · have hne : ¬ x = pr.1 := fun hh => h1.2 hh.symm
          rw [hcount pr h1.1, occCount_append]
          simp [occCount, if_neg hne]
        · obtain ⟨m, hm1, hm2⟩ := h1
          have hm := hcount _ hm2
          rw [hm1]
          simp only [occCount_append]
          simp only at hm
          simp [occCount, ← hm]
        · have hxp : x ∉ p := fun hh => h1.2 ((hmem x).mpr hh)
          rw [h1.1]
          simp [occCount_append, occCount_eq_zero_of_not_mem hxp, occCount]
      · rw [counterBump_keys]
        by_cases hx : x ∈ acc.map Prod.fst
        · simpa [hx] using hnd
        · simp only [if_neg hx]
          rw [List.nodup_append]
          refine ⟨hnd, List.nodup_singleton _, ?_⟩
          intro a ha hax
          simp only [List.mem_singleton] at hax
          subst hax
          exact hx ha
      · intro y
        rw [counterBump_keys]
        by_cases hx : x ∈ acc.map Prod.fst
        · have hxp : x ∈ p := (hmem x).mp hx
          simp only [if_pos hx, hmem y, List.mem_append, List.mem_singleton]
          constructor
          · exact fun h => Or.inl h
          · intro h
            rcases h with h | h
            · exact h
            · rw [h]
              exact hxp
        · simp [if_neg hx, List.mem_append, List.mem_singleton, hmem y]
      · rw [counterBump_keys]
        by_cases hx : x ∈ acc.map Prod.fst
        · simpa [hx] using hpw
        · simp only [if_neg hx]
          rw [List.pairwise_append]
          refine ⟨hpw, List.pairwise_singleton _ _, ?_⟩
          intro a ha b hb
          simp only [List.mem_singleton] at hb
          have hap : a ∈ p := (hmem a).mp ha
          have hxp : x ∉ p := fun hh => hx ((hmem x).mpr hh)
          have h1 : firstIdx a L = firstIdx a p := by
            rw [hL]
            exact firstIdx_append_of_mem hap _
          have h2 : firstIdx a p < p.length := firstIdx_lt_length_of_mem hap
          have h3 : firstIdx b L = p.length := by
            rw [hb, hL, firstIdx_append_of_not_mem hxp]
            simp [firstIdx]
          omega

theorem counterOf_invariant (l : List String) :
    (∀ pr ∈ counterOf l, pr.2 = occCount pr.1 l) ∧
    ((counterOf l).map Prod.fst).Nodup ∧
    (∀ x, x ∈ (counterOf l).map Prod.fst ↔ x ∈ l) ∧
    ((counterOf l).map Prod.fst).Pairwise (fun a b => firstIdx a l < firstIdx b l) := by
  have h := counterFold_invariant l l [] [] (by simp) (by simp) (by simp) (by simp) (by simp)
  simpa [counterOf] using h

theorem insertDesc_perm (x : String × ℕ) (acc : List (String × ℕ)) :
    (insertDesc x acc).Perm (x :: acc) := by
  induction acc with
  | nil => exact List.Perm.refl _
  | cons y ys ih =>
      simp only [insertDesc]
      split_ifs with h
      · exact (ih.cons y).trans (List.Perm.swap x y ys)
      · exact List.Perm.refl _

theorem sLe {Q : (String × ℕ) → (String × ℕ) → Prop} {a b : String × ℕ}
    (h : b.2 < a.2 ∨ (a.2 = b.2 ∧ Q a b)) : b.2 ≤ a.2 := by
  rcases h with h | h
  · exact le_of_lt h
  · exact le_of_eq h.1.symm

theorem insertDesc_pairwise {Q : (String × ℕ) → (String × ℕ) → Prop} (x : String × ℕ) :
    ∀ acc : List (String × ℕ),
      acc.Pairwise (fun a b => b.2 < a.2 ∨ (a.2 = b.2 ∧ Q a b)) →
      (∀ y ∈ acc, Q y x) →
      (insertDesc x acc).Pairwise (fun a b => b.2 < a.2 ∨ (a.2 = b.2 ∧ Q a b)) := by
  intro acc
  induction acc with
  | nil =>
      intro _ _
      simp [insertDesc]
  | cons y ys ih =>
      intro hacc hQ
      rcases List.pairwise_cons.mp hacc with ⟨hy, hys⟩
      simp only [insertDesc]
      split_ifs with h
      · refine List.pairwise_cons.mpr
          ⟨?_, ih hys (fun z hz => hQ z (List.mem_cons_of_mem _ hz))⟩
        intro z hz
        rcases List.mem_cons.mp ((insertDesc_perm x ys).mem_iff.mp hz) with rfl | hz'
        · rcases lt_or_eq_of_le h with hlt | heq
          · exact Or.inl hlt
          · exact Or.inr ⟨heq.symm, hQ y (List.mem_cons_self _ _)⟩
        · exact hy z hz'
      · push_neg at h
        refine List.pairwise_cons.mpr ⟨?_, hacc⟩
        intro z hz
        rcases List.mem_cons.mp hz with rfl | hz'
        · exact Or.inl h
        · exact Or.inl (lt_of_le_of_lt (sLe (hy z hz')) h)

theorem sortFold_perm :
    ∀ (c acc : List (String × ℕ)),
      (c.foldl (fun a x => insertDesc x a) acc).Perm (acc ++ c) := by
  intro c
  induction c with
  | nil =>
      intro acc
      rw [List.foldl_nil, List.append_nil]
  | cons x c' ih =>
      intro acc
      simp only [List.foldl_cons]
      refine (ih (insertDesc x acc)).trans ?_
      refine (List.Perm.append_right c' (insertDesc_perm x acc)).trans ?_
      exact List.perm_middle.symm

theorem most_common_perm (c : List (String × ℕ)) : (most_common c).Perm c := by
  simpa [most_common] using sortFold_perm c []

theorem sortFold_pairwise {Q : (String × ℕ) → (String × ℕ) → Prop} :
    ∀ (c acc : List (String × ℕ)),
      c.Pairwise Q →
      acc.Pairwise (fun a b => b.2 < a.2 ∨ (a.2 = b.2 ∧ Q a b)) →
      (∀ y ∈ acc, ∀ z ∈ c, Q y z) →
      (c.foldl (fun a x => insertDesc x a) acc).Pairwise
        (fun a b => b.2 < a.2 ∨ (a.2 = b.2 ∧ Q a b)) := by
  intro c
  induction c with
  | nil =>
      intro acc _ hacc _
      simpa using hacc
  | cons x c' ih =>
      intro acc hc hacc hcross
      rcases List.pairwise_cons.mp hc with ⟨hx, hc'⟩
      simp only [List.foldl_cons]
      refine ih (insertDesc x acc) hc' ?_ ?_
      · exact insertDesc_pairwise x acc hacc
          (fun y hy => hcross y hy x (List.mem_cons_self _ _))
      · intro y hy z hz
        rcases List.mem_cons.mp ((insertDesc_perm x acc).mem_iff.mp hy) with rfl | hy'
        · exact hx z hz
        · exact hcross y hy' z (List.mem_cons_of_mem _ hz)

theorem pairwiseStrengthen {α : Type} {R R' : α → α → Prop} :
    ∀ l : List α, (∀ a ∈ l, ∀ b ∈ l, R a b → R' a b) → l.Pairwise R → l.Pairwise R' := by
  intro l
  induction l with
  | nil =>
      intro _ _
      exact List.Pairwise.nil
  | cons x xs ih =>
      intro h hp
      rcases List.pairwise_cons.mp hp with ⟨hx, hxs⟩
      refine List.pairwise_cons.mpr ⟨?_, ih ?_ hxs⟩
      · intro z hz
        exact h x (List.mem_cons_self _ _) z (List.mem_cons_of_mem _ hz) (hx z hz)
      · intro a ha b hb hr
        exact h a (List.mem_cons_of_mem _ ha) b (List.mem_cons_of_mem _ hb) hr

/-- The list `most_common (counterOf l) |>.map fst` is exactly the
distinct elements of `l`, ordered by descending occurrence count with
ties broken by first occurrence position. -/
theorem most_common_counter_spec (l : List String) :
    ((most_common (counterOf l)).map Prod.fst).Nodup ∧
    (∀ x, x ∈ (most_common (counterOf l)).map Prod.fst ↔ x ∈ l) ∧
    ((most_common (counterOf l)).map Prod.fst).Pairwise (fun a b =>
      occCount b l < occCount a l ∨
        (occCount a l = occCount b l ∧ firstIdx a l < firstIdx b l)) := by
  obtain ⟨hcount, hnd, hmem, hpw⟩ := counterOf_invariant l
  have hperm : (most_common (counterOf l)).Perm (counterOf l) := most_common_perm _
  have hpermmap :
      ((most_common (counterOf l)).map Prod.fst).Perm ((counterOf l).map Prod.fst) :=
    hperm.map _
  refine ⟨hpermmap.nodup_iff.mpr hnd, ?_, ?_⟩
  · intro x
    rw [hpermmap.mem_iff]
    exact hmem x
  · have hQ : (counterOf l).Pairwise (fun a b => firstIdx a.1 l < firstIdx b.1 l) := by
      have hpw2 := hpw
      rw [List.pairwise_map] at hpw2
      exact hpw2
    have hsorted := sortFold_pairwise (Q := fun a b => firstIdx a.1 l < firstIdx b.1 l)
      (counterOf l) [] hQ List.Pairwise.nil (by intro y hy; cases hy)
    have hcount' : ∀ pr ∈ most_common (counterOf l), pr.2 = occCount pr.1 l :=
      fun pr hpr => hcount pr (hperm.subset hpr)
    rw [List.pairwise_map]
    refine pairwiseStrengthen _ ?_ hsorted
    intro a ha b hb hr
    have ha' : a ∈ most_common (counterOf l) := ha
    have hb' : b ∈ most_common (counterOf l) := hb
    rw [hcount' a ha', hcount' b hb'] at hr
    simpa using hr

end Features

/-- C9: for every non-empty snapshot list (and every instantiation of
the abstracted per-page detectors), the `languages` field of the feature
vector is duplicate-free, contains exactly the counted language labels,
and is ordered by strictly descending label frequency, with equal
frequencies ordered by the position of the label's first occurrence
(positions taken in `labelsOf pages`, which lists the labels in snapshot
order). -/
theorem claim_C9_languages_ordering (checks : Features.PageSignalChecks)
    (b : BusinessRecord) (pages : List WebCrawler.PageSnapshot) (h : pages ≠ []) :
    ((Features.build_feature_vector checks b pages).languages).Nodup ∧
    (∀ x, x ∈ (Features.build_feature_vector checks b pages).languages ↔
      x ∈ Features.labelsOf pages) ∧
    ((Features.build_feature_vector checks b pages).languages).Pairwise (fun a c =>
      Features.occCount c (Features.labelsOf pages) <
          Features.occCount a (Features.labelsOf pages) ∨
        (Features.occCount a (Features.labelsOf pages) =
            Features.occCount c (Features.labelsOf pages) ∧
          Features.firstIdx a (Features.labelsOf pages) <
            Features.firstIdx c (Features.labelsOf pages))) := by
  obtain ⟨p, ps, rfl⟩ : ∃ p ps, pages = p :: ps := by
    cases pages with
    | nil => exact absurd rfl h
    | cons p ps => exact ⟨p, ps, rfl⟩
  have hlang : (Features.build_feature_vector checks b (p :: ps)).languages =
      (Features.most_common (Features.counterOf (Features.labelsOf (p :: ps)))).map
        Prod.fst := rfl
  rw [hlang]
  exact Features.most_common_counter_spec (Features.labelsOf (p :: ps))

/-- C9 witness: the ordering property instantiated on three concrete
snapshots with languages ar, en, en. -/
theorem claim_C9_witness :
    triPages ≠ [] ∧
    (((Features.build_feature_vector noSignals maxBusiness triPages).languages).Nodup ∧
    (∀ x, x ∈ (Features.build_feature_vector noSignals maxBusiness triPages).languages ↔
      x ∈ Features.labelsOf triPages) ∧
    ((Features.build_feature_vector noSignals maxBusiness triPages).languages).Pairwise
      (fun a c =>
        Features.occCount c (Features.labelsOf triPages) <
            Features.occCount a (Features.labelsOf triPages) ∨
          (Features.occCount a (Features.labelsOf triPages) =
              Features.occCount c (Features.labelsOf triPages) ∧
            Features.firstIdx a (Features.labelsOf triPages) <
              Features.firstIdx c (Features.labelsOf triPages)))) :=
  ⟨by decide, claim_C9_languages_ordering noSignals maxBusiness triPages (by decide)⟩

/-! ## Claims C5 and C7: URL-parsing lemmas

The crucial fact for the crawler's same-origin guarantee is that
re-parsing the output of `_normalize_url` recovers the netloc of the
input's parse.  The lemmas below characterise `urlsplitL` on parses with
a netloc and on reconstructed strings of the shape
`scheme ++ "://" ++ netloc ++ path`. -/

namespace WebCrawler

theorem takeWhile_all {p : Char → Bool} :
    ∀ a : List Char, (∀ c ∈ a, p c = true) → a.takeWhile p = a ∧ a.dropWhile p = [] := by
  intro a
  induction a with
  | nil => exact fun _ => ⟨rfl, rfl⟩
  | cons x xs ih =>
      intro h
      have hx : p x = true := h x (List.mem_cons_self _ _)
      have ihh := ih (fun c hc => h c (List.mem_cons_of_mem _ hc))
      simp [List.takeWhile_cons, List.dropWhile_cons, hx, ihh.1, ihh.2]

theorem takeWhile_append_stop {p : Char → Bool} :
    ∀ (a : List Char) (hd : Char) (tl : List Char),
      (∀ c ∈ a, p c = true) → p hd = false →
      ((a ++ hd :: tl).takeWhile p = a ∧ (a ++ hd :: tl).dropWhile p = hd :: tl) := by
  intro a
  induction a with
  | nil =>
      intro hd tl _ hhd
      simp [List.takeWhile_cons, List.dropWhile_cons, hhd]
  | cons x xs ih =>
      intro hd tl h hhd
      have hx : p x = true := h x (List.mem_cons_self _ _)
      have ihh := ih hd tl (fun c hc => h c (List.mem_cons_of_mem _ hc)) hhd
      simp [List.takeWhile_cons, List.dropWhile_cons, hx, ihh.1, ihh.2]

theorem mem_takeWhile_facts {p : Char → Bool} :
    ∀ (l : List Char) (c : Char), c ∈ l.takeWhile p → p c = true ∧ c ∈ l := by
  intro l
  induction l with
  | nil =>
      intro c hc
      rw [List.takeWhile_nil] at hc
      cases hc
  | cons x xs ih =>
      intro c hc
      rw [List.takeWhile_cons] at hc
      by_cases hx : p x = true
      · rw [if_pos hx] at hc
        rcases List.mem_cons.mp hc with rfl | hc'
        · exact ⟨hx, List.mem_cons_self _ _⟩
        · obtain ⟨h1, h2⟩ := ih c hc'
          exact ⟨h1, List.mem_cons_of_mem _ h2⟩
      · rw [if_neg hx] at hc
        cases hc

theorem takeWhile_cons_inv {p : Char → Bool} {l : List Char} {c : Char} {r : List Char}
    (h : l.takeWhile p = c :: r) : p c = true ∧ ∃ r2, l = c :: r2 := by
  cases l with
  | nil =>
      rw [List.takeWhile_nil] at h
      cases h
  | cons x xs =>
      rw [List.takeWhile_cons] at h
      by_cases hx : p x = true
      · rw [if_pos hx] at h
        injection h with h1 h2
        subst h1
        exact ⟨hx, xs, rfl⟩
      · rw [if_neg hx] at h
        cases h

theorem dropWhile_head_false {p : Char → Bool} :
    ∀ {l : List Char} {c : Char} {r : List Char}, l.dropWhile p = c :: r → p c = false := by
  intro l
  induction l with
  | nil =>
      intro c r h
      rw [List.dropWhile_nil] at h
      cases h
  | cons x xs ih =>
      intro c r h
      rw [List.dropWhile_cons] at h
      by_cases hx : p x = true
      · rw [if_pos hx] at h
        exact ih h
      · rw [if_neg hx] at h
        injection h with h1 _
        simp only [Bool.not_eq_true] at hx
        rw [← h1]
        exact hx

theorem dropWhile_suffix_ex {p : Char → Bool} :
    ∀ l : List Char, ∃ t, t ++ l.dropWhile p = l := by
  intro l
  induction l with
  | nil => exact ⟨[], rfl⟩
  | cons x xs ih =>
      by_cases hx : p x = true
      · obtain ⟨t, ht⟩ := ih
        refine ⟨x :: t, ?_⟩
        rw [List.dropWhile_cons, if_pos hx, List.cons_append, ht]
      · refine ⟨[], ?_⟩
        rw [List.dropWhile_cons, if_neg hx, List.nil_append]

theorem dropWhile_append_emp {p : Char → Bool} :
    ∀ (x y : List Char), x.dropWhile p = [] → (x ++ y).dropWhile p = y.dropWhile p := by
  intro x
  induction x with
  | nil => exact fun y _ => rfl
  | cons a as ih =>
      intro y h
      rw [List.dropWhile_cons] at h
      by_cases ha : p a = true
      · rw [if_pos ha] at h
        rw [List.cons_append, List.dropWhile_cons, if_pos ha]
        exact ih y h
      · rw [if_neg ha] at h
        cases h

theorem dropWhile_append_ne {p : Char → Bool} :
    ∀ (x y : List Char), x.dropWhile p ≠ [] → (x ++ y).dropWhile p = x.dropWhile p ++ y := by
  intro x
  induction x with
  | nil => exact fun y h => absurd rfl h
  | cons a as ih =>
      intro y h
      by_cases ha : p a = true
      · rw [List.dropWhile_cons, if_pos ha] at h
        rw [List.cons_append, List.dropWhile_cons, if_pos ha, ih y h,
          List.dropWhile_cons, if_pos ha]
      · rw [List.cons_append, List.dropWhile_cons, if_neg ha, List.dropWhile_cons, if_neg ha,
          List.cons_append]

theorem splitScheme_eq (S rest : List Char)
    (h1 : ∀ c ∈ S, (c != ':') = true)
    (h2 : S ≠ [])
    (h3 : (S.headD ' ').isAlpha = true)
    (h4 : S.all schemeChar = true)
    (h5 : S.map Char.toLower = S) :
    splitScheme (S ++ ':' :: rest) = (S, rest) := by
  obtain ⟨ht, hd⟩ := takeWhile_append_stop S ':' rest h1 (by decide)
  simp only [splitScheme, ht, hd]
  rw [if_pos ⟨h2, h3, h4⟩, h5]

/-- Re-parsing a string of the canonical shape
`scheme ++ "://" ++ netloc ++ path` (scheme one of http/https, netloc
nonempty without stop characters or bad brackets, path empty or starting
with `/` and free of `#`/`?`) recovers exactly these components. -/
theorem urlsplitL_recon (S N P : List Char)
    (hS : S = "http".data ∨ S = "https".data)
    (_hN : N ≠ [])
    (hNs : ∀ c ∈ N, stopChar c = false)
    (hNb : bracketBad N = false)
    (hP : P = [] ∨ ∃ t, P = '/' :: t)
    (hPf : ∀ c ∈ P, c ≠ '#' ∧ c ≠ '?') :
    urlsplitL (S ++ ':' :: '/' :: '/' :: (N ++ P)) = some ⟨⟨S⟩, ⟨N⟩, ⟨P⟩, "", ""⟩ := by
  have hcolon : ∀ c ∈ S, (c != ':') = true := by
    rcases hS with rfl | rfl <;> decide
  have hne : S ≠ [] := by rcases hS with rfl | rfl <;> decide
  have halpha : (S.headD ' ').isAlpha = true := by rcases hS with rfl | rfl <;> decide
  have hall : S.all schemeChar = true := by rcases hS with rfl | rfl <;> decide
  have hlower : S.map Char.toLower = S := by rcases hS with rfl | rfl <;> decide
  have hsch := splitScheme_eq S ('/' :: '/' :: (N ++ P)) hcolon hne halpha hall hlower
  have hNs' : ∀ c ∈ N, (!stopChar c) = true := by
    intro c hc
    rw [hNs c hc]
    rfl
  have hsplit2 : (N ++ P).takeWhile (fun c => !stopChar c) = N ∧
      (N ++ P).dropWhile (fun c => !stopChar c) = P := by
    rcases hP with rfl | ⟨t, rfl⟩
    · have h := takeWhile_all (p := fun c => !stopChar c) N hNs'
      rw [List.append_nil]
      exact h
    · exact takeWhile_append_stop N '/' t hNs' (by decide)
  have hPf1 : ∀ c ∈ P, (c != '#') = true := by
    intro c hc
    simpa using (hPf c hc).1
  have hPf2 : ∀ c ∈ P, (c != '?') = true := by
    intro c hc
    simpa using (hPf c hc).2
  have hfr := takeWhile_all (p := fun c => c != '#') P hPf1
  have hpq := takeWhile_all (p := fun c => c != '?') P hPf2
  have htake : ('/' :: '/' :: (N ++ P)).take 2 = ['/', '/'] := rfl
  have hdrop : ('/' :: '/' :: (N ++ P)).drop 2 = N ++ P := rfl
  simp only [urlsplitL, hsch, htake, hdrop, splitOnChar, hsplit2.1, hsplit2.2,
    hfr.1, hfr.2, hpq.1, hpq.2, hNb, if_true, List.drop_nil]
  rfl

/-- Inversion of `urlsplitL` on a parse with nonempty netloc: the netloc
has no stop characters and no bad brackets, and the path is empty or
starts with `/` and contains neither `#` nor `?`. -/
theorem urlsplitL_netloc_inv {l : List Char} {u : UrlParts}
    (h : urlsplitL l = some u) (hn : u.netloc ≠ "") :
    (∀ c ∈ u.netloc.data, stopChar c = false) ∧
    bracketBad u.netloc.data = false ∧
    (u.path.data = [] ∨ ∃ t, u.path.data = '/' :: t) ∧
    (∀ c ∈ u.path.data, c ≠ '#' ∧ c ≠ '?') := by
  simp only [urlsplitL, splitOnChar] at h
  by_cases htake : (splitScheme l).2.take 2 = ['/', '/']
  · rw [if_pos htake] at h
    by_cases hbb :
        bracketBad (((splitScheme l).2.drop 2).takeWhile (fun c => !stopChar c)) = true
    · rw [if_pos hbb] at h
      cases h
    · rw [if_neg hbb] at h
      injection h with h'
      subst h'
      simp only
      refine ⟨?_, ?_, ?_, ?_⟩
      · intro c hc
        have := (mem_takeWhile_facts _ c hc).1
        simpa using this
      · simpa using hbb
      · cases hcase :
            ((((splitScheme l).2.drop 2).dropWhile (fun c => !stopChar c)).takeWhile
              (fun c => c != '#')).takeWhile (fun c => c != '?') with
        | nil => exact Or.inl rfl
        | cons c t =>
            refine Or.inr ?_
            obtain ⟨hq, r1, hr1⟩ := takeWhile_cons_inv hcase
            obtain ⟨hh, r2, hr2⟩ := takeWhile_cons_inv hr1
            have hstop : (!stopChar c) = false := dropWhile_head_false hr2
            have hstop' : stopChar c = true := by simpa using hstop
            have hcq : c ≠ '?' := by simpa using hq
            have hch : c ≠ '#' := by simpa using hh
            have hcs : c = '/' := by
              simp only [stopChar, Bool.or_eq_true, beq_iff_eq] at hstop'
              rcases hstop' with (hc | hc) | hc
              · exact hc
              · exact absurd hc hcq
              · exact absurd hc hch
            exact ⟨t, by rw [hcs]⟩
      · intro c hc
        have h1 := mem_takeWhile_facts _ c hc
        have h2 := mem_takeWhile_facts _ c h1.2
        refine ⟨by simpa using h2.1, by simpa using h1.1⟩
  · rw [if_neg htake] at h
    injection h with h'
    subst h'
    exact absurd rfl hn

theorem str_eq_empty_of_data {s : String} (h : s.data = []) : s = "" := by
  cases s with
  | mk d =>
      have hd : d = [] := h
      rw [hd]

/-- Re-parsing the output of `_normalize_url` recovers the netloc of the
input's parse: normalization never changes the host. -/
theorem hostOf_normalize {u v : String} {p : UrlParts}
    (hp : urlsplit u = some p) (h : normalize_url u = some v) :
    hostOf v = p.netloc := by
  have hps : urlsplitL u.data = some p := hp
  unfold normalize_url at h
  rw [hp] at h
  dsimp only at h
  by_cases hcond : (p.scheme = "http" ∨ p.scheme = "https") ∧ p.netloc ≠ ""
  case neg =>
    rw [if_neg hcond] at h
    cases h
  rw [if_pos hcond] at h
  injection h with hv
  obtain ⟨hNs, hNb, hPshape, hPchars⟩ := urlsplitL_netloc_inv hps hcond.2
  set path2 : String := if p.path = "" then ("/" : String) else p.path with hpath2def
  have hP2 : ∃ t2, path2.data = '/' :: t2 := by
    by_cases hpp : p.path = ""
    · refine ⟨[], ?_⟩
      rw [hpath2def, if_pos hpp]
    · rw [hpath2def, if_neg hpp]
      rcases hPshape with h0 | ⟨t, ht⟩
      · exact absurd (str_eq_empty_of_data h0) hpp
      · exact ⟨t, ht⟩
  have hP2chars : ∀ c ∈ path2.data, c ≠ '#' ∧ c ≠ '?' := by
    by_cases hpp : p.path = ""
    · rw [hpath2def, if_pos hpp]
      intro c hc
      have hc' : c = '/' := by simpa using hc
      rw [hc']
      exact ⟨by decide, by decide⟩
    · rw [hpath2def, if_neg hpp]
      exact hPchars
  obtain ⟨t2, ht2⟩ := hP2
  have hS : p.scheme.data = "http".data ∨ p.scheme.data = "https".data := by
    rcases hcond.1 with hs | hs
    · left
      rw [hs]
    · right
      rw [hs]
  have hSne : p.scheme ≠ "" := by
    rcases hcond.1 with hs | hs <;> rw [hs] <;> decide
  have hNne : p.netloc.data ≠ [] := fun hh => hcond.2 (str_eq_empty_of_data hh)
  have hun : urlunsplit ⟨p.scheme, p.netloc, path2, "", ""⟩ =
      ⟨p.scheme.data ++ ':' :: '/' :: '/' :: (p.netloc.data ++ path2.data)⟩ := by
    simp only [urlunsplit]
    rw [if_pos (Or.inl hcond.2)]
    rw [if_neg (fun hg : path2.data ≠ [] ∧ path2.data.head? ≠ some '/' =>
      hg.2 (by rw [ht2]; rfl))]
    rw [if_pos hSne]
    rw [if_neg (fun hg : ("" : String) ≠ "" => hg rfl)]
    rw [if_neg (fun hg : ("" : String) ≠ "" => hg rfl)]
  set C : List Char := p.scheme.data ++ ':' :: '/' :: '/' :: p.netloc.data with hCdef
  have hregroup : p.scheme.data ++ ':' :: '/' :: '/' :: (p.netloc.data ++ path2.data) =
      C ++ path2.data := by
    rw [hCdef]
    simp [List.append_assoc]
  obtain ⟨n0, N0, hN0⟩ : ∃ n0 N0, p.netloc.data.reverse = n0 :: N0 := by
    cases hrev : p.netloc.data.reverse with
    | nil => exact absurd (by simpa using hrev) hNne
    | cons a b => exact ⟨a, b, rfl⟩
  have hn0mem : n0 ∈ p.netloc.data := by
    have hmm : n0 ∈ p.netloc.data.reverse := by
      rw [hN0]
      exact List.mem_cons_self _ _
    exact List.mem_reverse.mp hmm
  have hn0 : (n0 == '/') = false := by
    cases hh : n0 == '/' with
    | false => rfl
    | true =>
        have hns := hNs n0 hn0mem
        simp [stopChar, hh] at hns
  have hCrev : ∃ rest, C.reverse = n0 :: rest := by
    rw [hCdef,
      show p.scheme.data ++ ':' :: '/' :: '/' :: p.netloc.data =
        (p.scheme.data ++ [':', '/', '/']) ++ p.netloc.data from by simp,
      List.reverse_append, hN0]
    exact ⟨N0 ++ (p.scheme.data ++ [':', '/', '/']).reverse, by rw [List.cons_append]⟩
  obtain ⟨crest, hcrest⟩ := hCrev
  set P3 : List Char := (path2.data.reverse.dropWhile (fun c => c == '/')).reverse
    with hP3def
  have hstrip : rstripSlashes ⟨C ++ path2.data⟩ = ⟨C ++ P3⟩ := by
    simp only [rstripSlashes]
    have hlist : ((C ++ path2.data).reverse.dropWhile (fun c => c == '/')).reverse =
        C ++ P3 := by
      rw [List.reverse_append]
      by_cases hD : path2.data.reverse.dropWhile (fun c => c == '/') = []
      · rw [dropWhile_append_emp _ _ hD, hcrest, List.dropWhile_cons,
          if_neg (by rw [hn0]; exact Bool.false_ne_true), ← hcrest,
          List.reverse_reverse, hP3def, hD]
        simp
      · rw [dropWhile_append_ne _ _ hD, List.reverse_append, List.reverse_reverse,
          hP3def]
    rw [hlist]
  obtain ⟨tp, htp⟩ := dropWhile_suffix_ex (p := fun c => c == '/') path2.data.reverse
  have hP2split : path2.data = P3 ++ tp.reverse := by
    have h1 := congrArg List.reverse htp
    rw [List.reverse_append, List.reverse_reverse] at h1
    rw [hP3def]
    exact h1.symm
  have hP3chars : ∀ c ∈ P3, c ≠ '#' ∧ c ≠ '?' := by
    intro c hc
    apply hP2chars
    rw [hP2split]
    exact List.mem_append_left _ hc
  have hP3shape : P3 = [] ∨ ∃ t, P3 = '/' :: t := by
    cases hP3case : P3 with
    | nil => exact Or.inl rfl
    | cons c cs =>
        refine Or.inr ⟨cs, ?_⟩
        have hcc : path2.data = c :: (cs ++ tp.reverse) := by
          rw [hP2split, hP3case, List.cons_append]
        have h12 := ht2.symm.trans hcc
        injection h12 with h1 _
        rw [← h1]
  set opt : String := if p.path = "" then ("/" : String) else "" with hoptdef
  have hoptcases : opt.data = [] ∨ opt.data = ['/'] := by
    rw [hoptdef]
    by_cases hpp : p.path = ""
    · rw [if_pos hpp]
      right
      rfl
    · rw [if_neg hpp]
      left
      rfl
  have hP4chars : ∀ c ∈ P3 ++ opt.data, c ≠ '#' ∧ c ≠ '?' := by
    intro c hc
    rcases List.mem_append.mp hc with hc1 | hc1
    · exact hP3chars c hc1
    · rcases hoptcases with ho | ho
      · rw [ho] at hc1
        cases hc1
      · rw [ho] at hc1
        have hc' : c = '/' := by simpa using hc1
        rw [hc']
        exact ⟨by decide, by decide⟩
  have hP4shape : P3 ++ opt.data = [] ∨ ∃ t, P3 ++ opt.data = '/' :: t := by
    rcases hP3shape with h3 | ⟨t, h3⟩
    · rw [h3, List.nil_append]
      rcases hoptcases with ho | ho
      · exact Or.inl ho
      · exact Or.inr ⟨[], ho⟩
    · rw [h3, List.cons_append]
      exact Or.inr ⟨t ++ opt.data, rfl⟩
  have hvdata : v.data = p.scheme.data ++ ':' :: '/' :: '/' ::
      (p.netloc.data ++ (P3 ++ opt.data)) := by
    rw [← hv, hun, congrArg String.mk hregroup, hstrip]
    show (C ++ P3) ++ opt.data = _
    rw [hCdef]
    simp [List.append_assoc]
  have hrecon := urlsplitL_recon p.scheme.data p.netloc.data (P3 ++ opt.data)
    hS hNne hNs hNb hP4shape hP4chars
  show (match urlsplitL v.data with
    | some pp => pp.netloc
    | none => "") = p.netloc
  rw [hvdata, hrecon]

/-- Every link accumulated by the `_extract_internal_links` fold keeps the
netloc of the crawl root. -/
theorem extract_fold_host (env : CrawlEnv) (root_url : String) (root_parts : UrlParts) :
    ∀ (hs : List String) (acc : List String),
      (∀ l ∈ acc, hostOf l = root_parts.netloc) →
      ∀ link ∈ hs.foldl (fun acc href =>
          let parsed := env.urljoin root_url href
          match urlsplit parsed with
          | none => acc
          | some pp =>
              if pp.netloc ≠ root_parts.netloc then acc
              else if ¬ (pp.scheme = "http" ∨ pp.scheme = "https") then acc
              else
                match normalize_url parsed with
                | some normalized =>
                    if normalized ≠ "" ∧ normalized ∉ acc then acc ++ [normalized] else acc
                | none => acc) acc,
        hostOf link = root_parts.netloc := by
  intro hs
  induction hs with
  | nil => exact fun acc hacc link hl => hacc link hl
  | cons href rest ih =>
      intro acc hacc link hl
      rw [List.foldl_cons] at hl
      refine ih _ ?_ link hl
      intro l hlmem
      dsimp only at hlmem
      cases hsp : urlsplit (env.urljoin root_url href) with
      | none =>
          rw [hsp] at hlmem
          exact hacc l hlmem
      | some pp =>
          rw [hsp] at hlmem
          dsimp only at hlmem
          by_cases h1 : pp.netloc ≠ root_parts.netloc
          · rw [if_pos h1] at hlmem
            exact hacc l hlmem
          · rw [if_neg h1] at hlmem
            push_neg at h1
            by_cases h2 : ¬ (pp.scheme = "http" ∨ pp.scheme = "https")
            · rw [if_pos h2] at hlmem
              exact hacc l hlmem
            · rw [if_neg h2] at hlmem
              cases hnorm : normalize_url (env.urljoin root_url href) with
              | none =>
                  rw [hnorm] at hlmem
                  exact hacc l hlmem
              | some normalized =>
                  rw [hnorm] at hlmem
                  dsimp only at hlmem
                  by_cases h3 : normalized ≠ "" ∧ normalized ∉ acc
                  · rw [if_pos h3] at hlmem
                    rcases List.mem_append.mp hlmem with hm | hm
                    · exact hacc l hm
                    · have hl2 : l = normalized := by simpa using hm
                      rw [hl2, hostOf_normalize hsp hnorm, h1]
                  · rw [if_neg h3] at hlmem
                    exact hacc l hlmem

theorem extract_links_host (env : CrawlEnv) (root : String) (html : String) :
    ∀ link ∈ extract_internal_links env root html, hostOf link = hostOf root := by
  intro link hl
  unfold extract_internal_links at hl
  cases hroot : urlsplit root with
  | none =>
      rw [hroot] at hl
      cases hl
  | some root_parts =>
      rw [hroot] at hl
      have hhr : hostOf root = root_parts.netloc := by
        unfold hostOf
        rw [hroot]
      rw [hhr]
      exact extract_fold_host env root root_parts (env.hrefs html) []
        (fun l hl2 => absurd hl2 (List.not_mem_nil l)) link hl

/-- Elements of the frontier after the link-enqueue fold come from the old
frontier or from the extracted links. -/
theorem enqueue_fold_mem (seen2 : List String) (cap : ℕ) :
    ∀ (links tv : List String) (t : String),
      t ∈ links.foldl (fun tv link =>
        if link ∉ seen2 ∧ link ∉ tv ∧ tv.length < cap then tv ++ [link] else tv) tv →
      t ∈ tv ∨ t ∈ links := by
  intro links
  induction links with
  | nil => exact fun tv t ht => Or.inl ht
  | cons l rest ih =>
      intro tv t ht
      rw [List.foldl_cons] at ht
      rcases ih _ t ht with hm | hm
      · by_cases hc : l ∉ seen2 ∧ l ∉ tv ∧ tv.length < cap
        · rw [if_pos hc] at hm
          rcases List.mem_append.mp hm with h | h
          · exact Or.inl h
          · right
            have ht2 : t = l := by simpa using h
            rw [ht2]
            exact List.mem_cons_self _ _
        · rw [if_neg hc] at hm
          exact Or.inl hm
      · exact Or.inr (List.mem_cons_of_mem _ hm)

/-- Loop invariant for `WebCrawler.crawl`: snapshots stay same-host and
never exceed `max_pages`. -/
theorem crawlLoop_host_invariant (env : CrawlEnv) (root : String) (mp : ℕ) :
    ∀ (fuel : ℕ) (st : CrawlState),
      (∀ t ∈ st.to_visit, hostOf t = hostOf root) →
      (∀ s ∈ st.snapshots, hostOf s.url = hostOf root) →
      st.snapshots.length ≤ mp →
      ((∀ s ∈ (crawlLoop env root mp fuel st).snapshots, hostOf s.url = hostOf root) ∧
        (crawlLoop env root mp fuel st).snapshots.length ≤ mp) := by
  intro fuel
  induction fuel with
  | zero => exact fun st _ h2 h3 => ⟨h2, h3⟩
  | succ n ih =>
      intro st h1 h2 h3
      obtain ⟨tv, seen, snaps, lg⟩ := st
      dsimp only at h1 h2 h3
      by_cases hfull : mp ≤ snaps.length
      · simp only [crawlLoop, if_pos hfull]
        exact ⟨h2, h3⟩
      · cases tv with
        | nil =>
            simp only [crawlLoop, if_neg hfull]
            exact ⟨h2, h3⟩
        | cons target rest =>
            have htarget : hostOf target = hostOf root :=
              h1 target (List.mem_cons_self _ _)
            have hrest : ∀ t ∈ rest, hostOf t = hostOf root :=
              fun t ht => h1 t (List.mem_cons_of_mem _ ht)
            by_cases hseen : target ∈ seen
            · simp only [crawlLoop, if_neg hfull, if_pos hseen]
              exact ih _ hrest h2 h3
            · by_cases hrob : ¬ env.robotsAllowed target = true
              · simp only [crawlLoop, if_neg hfull, if_neg hseen, if_pos hrob]
                exact ih _ hrest h2 h3
              · cases hf : env.fetch target with
                | none =>
                    simp only [crawlLoop, if_neg hfull, if_neg hseen, if_neg hrob, hf]
                    exact ih _ hrest h2 h3
                | some html =>
                    simp only [crawlLoop, if_neg hfull, if_neg hseen, if_neg hrob, hf]
                    refine ih _ ?_ ?_ ?_
                    · intro t ht
                      rcases enqueue_fold_mem _ _ _ _ t ht with hm | hm
                      · exact hrest t hm
                      · exact extract_links_host env root html t hm
                    · intro s hs
                      rcases List.mem_append.mp hs with hm | hm
                      · exact h2 s hm
                      · have hseq := List.mem_singleton.mp hm
                        rw [hseq]
                        exact htarget
                    · rw [List.length_append, List.length_singleton]
                      omega

/-- Loop invariant: only robots-allowed URLs are ever added to `seen`. -/
theorem crawlLoop_seen_allowed (env : CrawlEnv) (root : String) (mp : ℕ) :
    ∀ (fuel : ℕ) (st : CrawlState),
      (∀ u ∈ st.seen, env.robotsAllowed u = true) →
      ∀ u ∈ (crawlLoop env root mp fuel st).seen, env.robotsAllowed u = true := by
  intro fuel
  induction fuel with
  | zero => exact fun st hseen => hseen
  | succ n ih =>
      intro st hseen
      obtain ⟨tv, seen, snaps, lg⟩ := st
      dsimp only at hseen
      by_cases hfull : mp ≤ snaps.length
      · simp only [crawlLoop, if_pos hfull]
        exact hseen
      · cases tv with
        | nil =>
            simp only [crawlLoop, if_neg hfull]
            exact hseen
        | cons target rest =>
            by_cases hsn : target ∈ seen
            · simp only [crawlLoop, if_neg hfull, if_pos hsn]
              exact ih _ hseen
            · by_cases hrob : ¬ env.robotsAllowed target = true
              · simp only [crawlLoop, if_neg hfull, if_neg hsn, if_pos hrob]
                exact ih _ hseen
              · have hallowed : env.robotsAllowed target = true := not_not.mp hrob
                have hseen2 : ∀ u ∈ seen ++ [target], env.robotsAllowed u = true := by
                  intro u hu
                  rcases List.mem_append.mp hu with hm | hm
                  · exact hseen u hm
                  · have hu2 := List.mem_singleton.mp hm
                    rw [hu2]
                    exact hallowed
                cases hf : env.fetch target with
                | none =>
                    simp only [crawlLoop, if_neg hfull, if_neg hsn, if_neg hrob, hf]
                    exact ih _ hseen2
                | some html =>
                    simp only [crawlLoop, if_neg hfull, if_neg hsn, if_neg hrob, hf]
                    exact ih _ hseen2

end WebCrawler

/-- C7: for every environment (fetch outcomes, link structure, robots
policy), every `max_pages` and every seed URL, the crawler returns at
most `max_pages` snapshots, and every returned snapshot has the same
host (netloc) as the normalized seed URL. -/
theorem claim_C7_crawl_bounds (env : WebCrawler.CrawlEnv) (mp : ℕ) (url : String) :
    (WebCrawler.crawl env mp url).length ≤ mp ∧
    ∀ s ∈ WebCrawler.crawl env mp url, ∀ root, WebCrawler.normalize_url url = some root →
      WebCrawler.hostOf s.url = WebCrawler.hostOf root := by
  unfold WebCrawler.crawl WebCrawler.crawl_final
  cases hn : WebCrawler.normalize_url url with
  | none =>
      refine ⟨Nat.zero_le _, ?_⟩
      intro s hs
      cases hs
  | some root =>
      have hinv := WebCrawler.crawlLoop_host_invariant env root mp
        (WebCrawler.crawlFuel mp) ⟨[root], [], [], []⟩
        (by
          intro t ht
          have ht2 : t = root := by simpa using ht
          rw [ht2])
        (by
          intro s hs
          cases hs)
        (Nat.zero_le _)
      refine ⟨hinv.2, ?_⟩
      intro s hs root2 hroot2
      injection hroot2 with hh
      rw [← hh]
      exact hinv.1 s hs

/-- C7 witness: on a concrete environment where every fetch fails, the
crawl returns at most `max_pages` snapshots. -/
theorem claim_C7_witness :
    (WebCrawler.crawl offlineEnv 5 "https://example.com").length ≤ 5 :=
  (claim_C7_crawl_bounds offlineEnv 5 "https://example.com").1

/-- C5 counterexample: in the `blockedEnv` site fixture, the
robots-disallowed URL `http://s.test/b` is popped from the frontier and
robots-checked twice during a single crawl (the root links to it, it is
skipped without being marked seen, and `/f` re-enqueues it later), and it
never enters the `seen` set — contradicting the claim that a disallowed
URL is marked seen and never robots-checked twice. -/
theorem claim_C5_counterexample :
    Features.occCount "http://s.test/b"
        (WebCrawler.crawl_final blockedEnv 5 "http://s.test").robots_log = 2 ∧
    "http://s.test/b" ∉ (WebCrawler.crawl_final blockedEnv 5 "http://s.test").seen := by
  refine ⟨by decide, by decide⟩

/-- C5 amended: a URL popped from the frontier that is robots-disallowed
is skipped but NOT added to the seen set — only URLs that pass both the
seen check and the robots check are marked seen — so a disallowed URL can
be re-enqueued and robots-checked again in the same crawl; formally,
every URL in the final seen set is robots-allowed. -/
theorem claim_C5_amended (env : WebCrawler.CrawlEnv) (mp : ℕ) (url : String) :
    ∀ u ∈ (WebCrawler.crawl_final env mp url).seen, env.robotsAllowed u = true := by
  intro u hu
  unfold WebCrawler.crawl_final at hu
  cases hn : WebCrawler.normalize_url url with
  | none =>
      rw [hn] at hu
      cases hu
  | some root =>
      rw [hn] at hu
      exact WebCrawler.crawlLoop_seen_allowed env root mp (WebCrawler.crawlFuel mp)
        ⟨[root], [], [], []⟩ (fun u2 hu2 => absurd hu2 (List.not_mem_nil u2)) u hu

/-- C5 witness: the amended statement instantiated on the `blockedEnv`
fixture at the crawl root, which is in the final seen set. -/
theorem claim_C5_witness :
    "http://s.test/" ∈ (WebCrawler.crawl_final blockedEnv 5 "http://s.test").seen ∧
    blockedEnv.robotsAllowed "http://s.test/" = true :=
  ⟨by decide, claim_C5_amended blockedEnv 5 "http://s.test" "http://s.test/" (by decide)⟩

end BrainsaitAI
